import Mathlib

/-!
Verification of the `perfect_set` repository (HD and FKS perfect-hash sets).

Shallow embedding of the three container variants of the repository:

* `hd.perfect_set`   (src/unnamed/part_000, header `hd_perfect_set.hpp`),
* `fks.perfect_set`  Variant A (src/fks_perfect_set.hpp),
* `fks.perfect_set`  Variant B (src/unnamed/part_002, mask-based, growing array).

Machine integers (`std::size_t`, 64-bit) are modelled as `Nat` with explicit
`% 2 ^ 64` wherever C++ arithmetic can wrap (left shifts, multiply-add).
Hash functors are arbitrary `α → Nat` functions truncated to 64 bits at each
call site (`hashv`), mirroring that `operator()` returns `std::size_t`.
Shift counts are taken literally with total `Nat` semantics, so a shift by
64 or more yields the mathematical value 0 on the 64-bit residue.
`std::vector` members persist across construction retries exactly as in the
source: each `construct` call resizes the previous contents (`resizeD`).
Exceptions are modelled by `Except`; `construct`'s `return true/false` by a
`Bool` paired with the mutated state.
-/

set_option maxRecDepth 10000

/-- Fuel-driven bit-width helper (structural recursion so that the kernel can
evaluate it). `bitWidthAux f n` computes the bit width of `n` provided
`n < 2 ^ f`. -/
def bitWidthAux : Nat → Nat → Nat
  | 0, _ => 0
  | f + 1, n => if n = 0 then 0 else bitWidthAux f (n / 2) + 1

/-- `boost::core::bit_width`: number of binary digits of `n` (0 for 0).
Fuel `n` suffices because the bit width of `n` is at most `n`. -/
def bitWidth (n : Nat) : Nat := bitWidthAux n n

/-- Fuel-driven population-count helper (structural recursion). -/
def popcountAux : Nat → Nat → Nat
  | 0, _ => 0
  | f + 1, n => if n = 0 then 0 else popcountAux f (n / 2) + n % 2

/-- `boost::core::popcount`: number of set bits of `n`. -/
def popcount (n : Nat) : Nat := popcountAux n n

/-- `boost::core::bit_ceil`: smallest power of two that is `≥ n` (1 for `n ≤ 1`). -/
def bitCeil (n : Nat) : Nat := if n ≤ 1 then 1 else 2 ^ bitWidth (n - 1)

/-- `std::vector::resize` semantics: keep the first `n` elements, extend with
the default value `dflt` when growing. -/
def resizeD {γ : Type} (l : List γ) (n : Nat) (dflt : γ) : List γ :=
  l.take n ++ List.replicate (n - l.length) dflt

/-- A hash functor returns `std::size_t`, i.e. its mathematical value reduced
modulo `2 ^ 64`. -/
def hashv {α : Type} (h : α → Nat) (x : α) : Nat := h x % 2 ^ 64

/-- `pow2_lower_size_policy::size_index` (identical in `hd` and `fks`). -/
def pow2LowerSizeIndex (n : Nat) : Nat :=
  (1 <<< (if n ≤ 2 then 1 else bitWidth (n - 1))) - 1

/-- `pow2_lower_size_policy::size`. -/
def pow2LowerSize (sizeIndex : Nat) : Nat := sizeIndex + 1

/-- `pow2_lower_size_policy::position`. -/
def pow2LowerPosition (hash sizeIndex : Nat) : Nat := hash &&& sizeIndex

/-- `pow2_upper_size_policy::size_index` (identical in `hd` and `fks`). -/
def pow2UpperSizeIndex (n : Nat) : Nat :=
  64 - (if n ≤ 2 then 1 else bitWidth (n - 1))

/-- `pow2_upper_size_policy::size`. -/
def pow2UpperSize (sizeIndex : Nat) : Nat := 1 <<< (64 - sizeIndex)

/-- `pow2_upper_size_policy::position`. -/
def pow2UpperPosition (hash sizeIndex : Nat) : Nat := hash >>> sizeIndex

/-- The three exception types of both headers. -/
inductive BErr where
  | constructionFailure
  | duplicateElement
  | duplicateHash
deriving DecidableEq, Repr

/-- Constructor loop shared by all three `perfect_set` variants:
`while(lambda){ if(construct(first,last,lambda)) return; lambda/=2; }
throw construction_failure{};`
written with explicit fuel so that it stays structurally recursive (hence
kernel-evaluable).  Fuel `lambda` is enough because `lambda` strictly
halves, and `driverFrom_succ` below recovers the `while` recurrence.
`attempt prev lam` is one `construct` call: a thrown exception, or the
`return` value paired with the mutated object state. -/
def driverFuel {σ : Type} (attempt : σ → Nat → Except BErr (Bool × σ)) :
    Nat → σ → Nat → Except BErr σ
  | 0, _, _ => .error .constructionFailure
  | fuel + 1, prev, lambda =>
    if lambda = 0 then .error .constructionFailure
    else
      match attempt prev lambda with
      | .error e => .error e
      | .ok (true, s) => .ok s
      | .ok (false, s) => driverFuel attempt fuel s (lambda / 2)

/-- The constructor loop started on object state `prev` with load factor
`lambda`. -/
def driverFrom {σ : Type} (attempt : σ → Nat → Except BErr (Bool × σ))
    (prev : σ) (lambda : Nat) : Except BErr σ :=
  driverFuel attempt lambda prev lambda

/-- `allFailFrom attempt prev lambda` holds exactly when every `construct`
attempt of the halving sequence `lambda, lambda/2, ..., 1` returns `false`
(no attempt succeeds or throws). -/
def allFailFrom {σ : Type} (attempt : σ → Nat → Except BErr (Bool × σ))
    (prev : σ) (lambda : Nat) : Prop :=
  if h : lambda = 0 then True
  else
    match attempt prev lambda with
    | .ok (false, s) => allFailFrom attempt s (lambda / 2)
    | _ => False
termination_by lambda
decreasing_by exact Nat.div_lt_self (Nat.pos_of_ne_zero h) (by omega)

/-- Stable insertion (descending bucket size) used to model
`std::sort(sorted_bucket_indices..., size >)`: ties keep ascending bucket
index, which is the deterministic order documented by the spec (§5). -/
def insertBySizeDesc (sz : Nat → Nat) (i : Nat) : List Nat → List Nat
  | [] => [i]
  | j :: rest =>
    if sz i ≤ sz j then j :: insertBySizeDesc sz i rest else i :: j :: rest

/-- `sorted_bucket_indices` sorted by descending bucket size. -/
def sortedBucketIndices (sz : Nat → Nat) (n : Nat) : List Nat :=
  (List.range n).foldl (fun acc i => insertBySizeDesc sz i acc) []

namespace hd

/-- `hd::perfect_set` data members (`end_` is determined by `elements`, which
is never resized after `end_=elements.end()` is set). -/
structure HDSet (α : Type) where
  size_ : Nat
  dsize_index : Nat
  displacements : List (Nat × Nat)
  size_index : Nat
  elements : List α
deriving DecidableEq, Repr

variable {α : Type} [Inhabited α]

/-- `hd::perfect_set::default_lambda`. -/
def defaultLambda : Nat := 4

/-- Bucket classification loop of `hd::perfect_set::construct`: each key is
appended (`push_back`) to the bucket selected by the low bits of its hash. -/
def hdBuckets (h : α → Nat) (dsize_index : Nat) (keys : List α) :
    List (List (α × Nat)) :=
  keys.foldl
    (fun bs k =>
      let hv := hashv h k
      let b := pow2LowerPosition hv dsize_index
      bs.set b (bs.getD b [] ++ [(k, hv)]))
    (List.replicate (pow2LowerSize dsize_index) [])

/-- The in-bucket duplicate scan of `hd::perfect_set::construct` (lines
179-186): entry `j` is compared against every earlier entry `k`; on the first
hash match it throws `duplicate_element` if `pred(bucket[j], bucket[k])`,
else `duplicate_hash`. -/
def hdDupScan (pred : α → α → Bool) :
    List (α × Nat) → List (α × Nat) → Option BErr
  | _, [] => none
  | prev, e :: rest =>
    match prev.find? (fun p => p.2 == e.2) with
    | some p => some (if pred e.1 p.1 then .duplicateElement else .duplicateHash)
    | none => hdDupScan pred (prev ++ [e]) rest

/-- `hd::perfect_set::element_position`: upper bits of
`d.first + d.second * hash` computed in 64-bit arithmetic. -/
def hdElementPosition (size_index hash : Nat) (d : Nat × Nat) : Nat :=
  pow2UpperPosition ((d.1 + d.2 * hash) % 2 ^ 64) size_index

/-- Inner member loop for one displacement candidate: walk the bucket,
reject on a virtual-overflow position (`pos ≥ size_`) or an occupied slot,
otherwise extend the tentative mask (`mask1`) and record the placement. -/
def hdTryPlace (size_ size_index : Nat) (d : Nat × Nat) :
    List Bool → List (Nat × α) → List (α × Nat) →
    Option (List Bool × List (Nat × α))
  | mask, placed, [] => some (mask, placed)
  | mask, placed, (k, hv) :: rest =>
    let pos := hdElementPosition size_index hv d
    if size_ ≤ pos then none
    else if mask.getD pos false then none
    else hdTryPlace size_ size_index d (mask.set pos true)
      (placed ++ [(pos, k)]) rest

/-- The displacement candidates in search order: `d0` outer, `d1` inner,
each already encoded as `(d0 << size_index, (d1 << 32) + 1)` (line 191). -/
def hdCandidates (extended_size size_index : Nat) : List (Nat × Nat) :=
  (List.range extended_size).flatMap
    (fun d0 => (List.range extended_size).map
      (fun d1 => (d0 <<< size_index, (d1 <<< 32) + 1)))

/-- Displacement search for one bucket: first candidate that places every
member wins. -/
def hdSearchDisp (size_ size_index : Nat) (bucket : List (α × Nat))
    (mask : List Bool) :
    List (Nat × Nat) → Option ((Nat × Nat) × List Bool × List (Nat × α))
  | [] => none
  | d :: ds =>
    match hdTryPlace size_ size_index d mask [] bucket with
    | some (m, pl) => some (d, m, pl)
    | none => hdSearchDisp size_ size_index bucket mask ds

/-- Per-bucket placement loop of `hd::perfect_set::construct` (lines
175-211).  The remaining list holds `(i, sorted_bucket_indices[i])` pairs;
note that the committed displacement pair is written at the loop counter
`i` (`displacements[i]=d`, line 199), not at the bucket index. -/
def hdPlaceBuckets (pred : α → α → Bool) (size_ size_index : Nat)
    (buckets : List (List (α × Nat))) :
    List (Nat × Nat) → List Bool → List α → List (Nat × Nat) →
    Except BErr (Bool × List α × List (Nat × Nat))
  | [], _, elements, displacements => .ok (true, elements, displacements)
  | (i, bi) :: rest, mask, elements, displacements =>
    let bucket := buckets.getD bi []
    if bucket.isEmpty then .ok (true, elements, displacements)
    else
      match hdDupScan pred [] bucket with
      | some e => .error e
      | none =>
        match hdSearchDisp size_ size_index bucket mask
            (hdCandidates (pow2UpperSize size_index) size_index) with
        | none => .ok (false, elements, displacements)
        | some (d, mask1, placed) =>
          hdPlaceBuckets pred size_ size_index buckets rest mask1
            (placed.foldl (fun es pk => es.set pk.1 pk.2) elements)
            (displacements.set i d)

/-- One call of `hd::perfect_set::construct` on the previous object state
(vector members persist across retries and are resized, scalars are
reassigned). Returns the thrown error, or the `return` value paired with
the mutated state. -/
def hdConstruct (h : α → Nat) (pred : α → α → Bool) (prev : HDSet α)
    (keys : List α) (lambda : Nat) : Except BErr (Bool × HDSet α) :=
  let size_ := keys.length
  let dsize_index := pow2LowerSizeIndex (size_ / lambda)
  let displacements := resizeD prev.displacements (pow2LowerSize dsize_index) (0, 0)
  let size_index := pow2UpperSizeIndex (size_ + 1)
  let elements := resizeD prev.elements size_ default
  let buckets := hdBuckets h dsize_index keys
  let sorted := sortedBucketIndices (fun b => (buckets.getD b []).length)
    displacements.length
  match hdPlaceBuckets pred size_ size_index buckets sorted.enum
      (List.replicate size_ false) elements displacements with
  | .error e => .error e
  | .ok (done, es, ds) => .ok (done, ⟨size_, dsize_index, ds, size_index, es⟩)

/-- `hd::perfect_set::find`: cursor result as an index into `elements`;
`size_` is the end cursor.  The `||` of the source short-circuits, so the
element array is only read when `pos < size_`. -/
def hdFind (h : α → Nat) (pred : α → α → Bool) (s : HDSet α) (x : α) : Nat :=
  let hash := hashv h x
  let pos := hdElementPosition s.size_index hash
    (s.displacements.getD (pow2LowerPosition hash s.dsize_index) (0, 0))
  if s.size_ ≤ pos then s.size_
  else if pred x (s.elements.getD pos default) then pos
  else s.size_

/-- The default-initialised object before the constructor body runs
(empty vectors; the scalar members are assigned before use). -/
def hdInit : HDSet α := ⟨0, 0, [], 0, []⟩

/-- The extended capacity `M` fixed by `hd::perfect_set::construct`
(line 155): `extended_size = element_size_policy::size(size_index)` with
`size_index = element_size_policy::size_index(size_+1)`. -/
def hdExtendedSize (n : Nat) : Nat :=
  pow2UpperSize (pow2UpperSizeIndex (n + 1))

/-- The tentative-slot formula exactly as the specification words it
(spec §4.3 step 3): `((d0 · M) + ((d1 << 32) + 1) · h) >> size_index_element`
in 64-bit arithmetic.  Stated for comparison with `hdElementPosition`,
which embeds the source computation. -/
def hdSlotSpecFormula (M size_index d0 d1 hash : Nat) : Nat :=
  ((d0 * M + ((d1 <<< 32) + 1) * hash) % 2 ^ 64) >>> size_index

/-- The constructor loop of `hd::perfect_set` resumed on a given object
state. -/
def hdMkFrom (h : α → Nat) (pred : α → α → Bool) (keys : List α)
    (prev : HDSet α) (lambda : Nat) : Except BErr (HDSet α) :=
  driverFrom (fun s lam => hdConstruct h pred s keys lam) prev lambda

/-- `hd::perfect_set::perfect_set(first, last, lambda)`. -/
def hdMk (h : α → Nat) (pred : α → α → Bool) (keys : List α)
    (lambda : Nat) : Except BErr (HDSet α) :=
  hdMkFrom h pred keys hdInit lambda

/-- The sequence of values visited iterating from `begin()` to `end()`
(lines 118-119): `end_` is captured as `elements.end()` right after
`elements.resize(size_)`, so the walk spans slots `0..size_`. -/
def hdIterKeys (s : HDSet α) : List α :=
  s.elements.take s.size_

end hd

namespace fks

variable {α : Type} [Inhabited α]

/-- `fks::perfect_set::default_lambda` (both variants). -/
def defaultLambda : Nat := 4

/-- Bucket-insertion loop shared by both FKS variants (Variant A lines
179-193, Variant B lines 190-204): each key walks its bucket list in
insertion order; the first node with an equal hash throws
`duplicate_element` if `pred(existing, new)` holds, else `duplicate_hash`;
otherwise the key is appended at the tail. -/
def fksClassify (h : α → Nat) (pred : α → α → Bool) (jsize_index : Nat) :
    List (List (α × Nat)) → List α → Except BErr (List (List (α × Nat)))
  | bs, [] => .ok bs
  | bs, k :: rest =>
    let hv := hashv h k
    let b := pow2UpperPosition hv jsize_index
    let bucket := bs.getD b []
    match bucket.find? (fun p => p.2 == hv) with
    | some p => .error (if pred p.1 k then .duplicateElement else .duplicateHash)
    | none => fksClassify h pred jsize_index (bs.set b (bucket ++ [(k, hv)])) rest

/-! ## Variant A (`src/fks_perfect_set.hpp`) -/

/-- `fks::perfect_set` Variant A data members. -/
structure FKSASet (α : Type) where
  size_ : Nat
  jsize_index : Nat
  positions : List Nat
  jumps : List (Nat × Nat)
  elements : List α
deriving DecidableEq, Repr

/-- Variant A `jump_info::set`: `shl=64-shift-width`, `shr=64-width` stored
in `unsigned char`, so a negative `64-shift-width` wraps modulo 256. -/
def fksaJmpSet (shift width : Nat) : Nat × Nat :=
  ((320 - shift - width) % 256, 64 - width)

/-- Variant A default-constructed `jump_info`: `shl=0`, `shr=64`. -/
def fksaJmpDefault : Nat × Nat := (0, 64)

/-- Variant A `element_offset`: `(hash<<shl)>>shr` in 64-bit arithmetic. -/
def fksaElementOffset (hash : Nat) (jmp : Nat × Nat) : Nat :=
  ((hash <<< jmp.1) % 2 ^ 64) >>> jmp.2

/-- Variant A `element_position`: bucket base position plus window offset. -/
def fksaElementPosition (hash pos : Nat) (jmp : Nat × Nat) : Nat :=
  pos + fksaElementOffset hash jmp

/-- Offset collection for one `(shift, width)` candidate; `none` when two
bucket members collide on the window (`goto next_wd`). -/
def fksaOffsets (jmp : Nat × Nat) :
    List Nat → List (α × Nat) → Option (List Nat)
  | acc, [] => some acc
  | acc, (_, hv) :: rest =>
    let off := fksaElementOffset hv jmp
    if acc.contains off then none
    else fksaOffsets jmp (acc ++ [off]) rest

/-- One sliding-window feasibility test: every offset must land inside the
array (`pos+off < size_`) on an available slot. -/
def fksaSlideCheck (size_ : Nat) (mask : List Bool) (pos : Nat) :
    List Nat → Bool
  | [] => true
  | off :: offs =>
    if size_ ≤ pos + off then false
    else if !mask.getD (pos + off) false then false
    else fksaSlideCheck size_ mask pos offs

/-- The base-position slide `for(pos=0; pos+max_off<size_; ++pos)`. -/
def fksaSlide (size_ : Nat) (mask : List Bool) (offs : List Nat) :
    List Nat → Option Nat
  | [] => none
  | p :: ps =>
    if fksaSlideCheck size_ mask p offs then some p
    else fksaSlide size_ mask offs ps

/-- Variant A candidate order: `sh ∈ [0, 64-min_wd]` outer,
`wd ∈ [min_wd, 64)` inner. -/
def fksaCandidates (min_wd : Nat) : List (Nat × Nat) :=
  (List.range (65 - min_wd)).flatMap
    (fun sh => (List.range (64 - min_wd)).map (fun j => (sh, min_wd + j)))

/-- Variant A parameter search for one bucket: the first candidate whose
window is injective on the bucket and whose offset set slides onto free
slots wins. -/
def fksaSearch (size_ : Nat) (bucket : List (α × Nat)) (mask : List Bool)
    (max_off : Nat) : List (Nat × Nat) → Option ((Nat × Nat) × Nat × List Nat)
  | [] => none
  | (sh, wd) :: cands =>
    let jmp := fksaJmpSet sh wd
    match fksaOffsets jmp [] bucket with
    | none => fksaSearch size_ bucket mask max_off cands
    | some offs =>
      match fksaSlide size_ mask offs (List.range (size_ - max_off)) with
      | none => fksaSearch size_ bucket mask max_off cands
      | some p => some (jmp, p, offs)

/-- Commit of one Variant A bucket: write the members at `p+off`, mark the
slots unavailable. -/
def fksaCommit (p : Nat) (offs : List Nat) (bucket : List (α × Nat))
    (elements : List α) (mask : List Bool) : List α × List Bool :=
  (offs.zip bucket).foldl
    (fun st ob => (st.1.set (p + ob.1) ob.2.1, st.2.set (p + ob.1) false))
    (elements, mask)

/-- Variant A per-bucket placement loop (sorted by descending size; the
committed parameters are stored at `sorted_bucket_indices[i]`). -/
def fksaPlaceBuckets (size_ : Nat) (buckets : List (List (α × Nat))) :
    List Nat → List Bool → List α → List Nat → List (Nat × Nat) →
    Bool × List α × List Nat × List (Nat × Nat)
  | [], _, elements, positions, jumps => (true, elements, positions, jumps)
  | bi :: rest, mask, elements, positions, jumps =>
    let bucket := buckets.getD bi []
    if bucket.isEmpty then (true, elements, positions, jumps)
    else
      let max_off := bitCeil bucket.length - 1
      let min_wd := popcount max_off
      match fksaSearch size_ bucket mask max_off (fksaCandidates min_wd) with
      | none => (false, elements, positions, jumps)
      | some (jmp, p, offs) =>
        let em := fksaCommit p offs bucket elements mask
        fksaPlaceBuckets size_ buckets rest em.2 em.1
          (positions.set bi p) (jumps.set bi jmp)

/-- One call of Variant A `construct` on the previous object state. -/
def fksaConstruct (h : α → Nat) (pred : α → α → Bool) (prev : FKSASet α)
    (keys : List α) (lambda : Nat) : Except BErr (Bool × FKSASet α) :=
  let size_ := keys.length
  let jsize_index := pow2UpperSizeIndex (size_ / lambda)
  let positions := resizeD prev.positions (pow2UpperSize jsize_index) 0
  let jumps := resizeD prev.jumps positions.length fksaJmpDefault
  let elements := resizeD prev.elements size_ default
  match fksClassify h pred jsize_index
      (List.replicate jumps.length []) keys with
  | .error e => .error e
  | .ok buckets =>
    let sorted := sortedBucketIndices (fun b => (buckets.getD b []).length)
      buckets.length
    match fksaPlaceBuckets size_ buckets sorted
        (List.replicate size_ true) elements positions jumps with
    | (done, es, ps, js) => .ok (done, ⟨size_, jsize_index, ps, js, es⟩)

/-- The raw element position Variant A `find` computes (before the predicate
test); there is no bounds check on it in the source. -/
def fksaFindPos (s : FKSASet α) (hash : Nat) : Nat :=
  let jpos := pow2UpperPosition hash s.jsize_index
  fksaElementPosition hash (s.positions.getD jpos 0)
    (s.jumps.getD jpos fksaJmpDefault)

/-- Variant A `find` (lines 122-133): end cursor is index `size_`. -/
def fksaFind (h : α → Nat) (pred : α → α → Bool) (s : FKSASet α)
    (x : α) : Nat :=
  if s.size_ = 0 then 0
  else
    let pos := fksaFindPos s (hashv h x)
    if pred x (s.elements.getD pos default) then pos else s.size_

/-- The Variant A `begin()..end()` walk (lines 119-120:
`elements.begin()` to `elements.begin()+size_`). -/
def fksaIterKeys (s : FKSASet α) : List α :=
  s.elements.take s.size_

/-- Default-initialised Variant A object. -/
def fksaInit : FKSASet α := ⟨0, 0, [], [], []⟩

/-- The Variant A constructor loop resumed on a given object state. -/
def fksaMkFrom (h : α → Nat) (pred : α → α → Bool) (keys : List α)
    (prev : FKSASet α) (lambda : Nat) : Except BErr (FKSASet α) :=
  driverFrom (fun s lam => fksaConstruct h pred s keys lam) prev lambda

/-- Variant A `perfect_set(first, last, lambda)`. -/
def fksaMk (h : α → Nat) (pred : α → α → Bool) (keys : List α)
    (lambda : Nat) : Except BErr (FKSASet α) :=
  fksaMkFrom h pred keys fksaInit lambda

/-! ## Variant B (`src/unnamed/part_002`, `UseMask=true`) -/

/-- `fks::perfect_set` Variant B data members. -/
structure FKSBSet (α : Type) where
  capacity_ : Nat
  jsize_index : Nat
  jumps : List (Nat × Nat)
  elements : List α
  mask : List Bool
deriving DecidableEq, Repr

/-- Variant B `jump_info::set`:
`width_shift = ((~(size_t(-1)<<width))<<8)+shift = (2^width-1)·256+shift`. -/
def fksbWidthShift (shift width : Nat) : Nat :=
  ((2 ^ width - 1) <<< 8) + shift

/-- Variant B `element_position`:
`jmp.pos + ((hash>>(unsigned char)jmp.width_shift)&(jmp.width_shift>>8))`. -/
def fksbElementPosition (hash : Nat) (jmp : Nat × Nat) : Nat :=
  jmp.1 + ((hash >>> (jmp.2 % 256)) &&& (jmp.2 >>> 8))

/-- Position collection for one Variant B candidate; `none` when two bucket
members collide (`goto next_sh`). -/
def fksbPositions (jmp : Nat × Nat) :
    List Nat → List (α × Nat) → Option (List Nat)
  | acc, [] => some acc
  | acc, (_, hv) :: rest =>
    let pos := fksbElementPosition hv jmp
    if acc.contains pos then none
    else fksbPositions jmp (acc ++ [pos]) rest

/-- Variant B candidate order: `wd ∈ [0,56)` outer, `sh ∈ [0,64)` inner. -/
def fksbCandidates : List (Nat × Nat) :=
  (List.range 56).flatMap
    (fun wd => (List.range 64).map (fun sh => (wd, sh)))

/-- Variant B parameter search for one bucket (base position fixed at
`jmpPos`): the first candidate injective on the bucket wins. -/
def fksbSearch (jmpPos : Nat) (bucket : List (α × Nat)) :
    List (Nat × Nat) → Option (Nat × Nat × List Nat)
  | [] => none
  | (wd, sh) :: cands =>
    let jmp := (jmpPos, fksbWidthShift sh wd)
    match fksbPositions jmp [] bucket with
    | none => fksbSearch jmpPos bucket cands
    | some poss => some (wd, fksbWidthShift sh wd, poss)

/-- Variant B per-bucket loop (ascending bucket index, empty buckets
skipped).  `jmp` is a reference into `jumps`, so `jmp.pos=capacity_` and the
`jmp.set` of the last tried candidate (`wd=55`, `sh=63`) persist when the
search fails and `construct` returns `false`. -/
def fksbPlaceBuckets (buckets : List (List (α × Nat))) :
    List Nat → Nat → List (Nat × Nat) → List α → List Bool →
    Bool × Nat × List (Nat × Nat) × List α × List Bool
  | [], capacity, jumps, elements, mask => (true, capacity, jumps, elements, mask)
  | i :: rest, capacity, jumps, elements, mask =>
    let bucket := buckets.getD i []
    if bucket.isEmpty then fksbPlaceBuckets buckets rest capacity jumps elements mask
    else
      match fksbSearch capacity bucket fksbCandidates with
      | none =>
        (false, capacity, jumps.set i (capacity, fksbWidthShift 63 55),
          elements, mask)
      | some (wd, ws, poss) =>
        let capacity' := capacity + (1 <<< wd)
        let em := (poss.zip bucket).foldl
          (fun st pb => (st.1.set pb.1 pb.2.1, st.2.set pb.1 true))
          (resizeD elements capacity' default, resizeD mask capacity' false)
        fksbPlaceBuckets buckets rest capacity'
          (jumps.set i (capacity, ws)) em.1 em.2

/-- One call of Variant B `construct` on the previous object state
(slot 0 is reserved for empty buckets: `elements.resize(1)`, `mask[0]=0`,
`capacity_=1`). -/
def fksbConstruct (h : α → Nat) (pred : α → α → Bool) (prev : FKSBSet α)
    (keys : List α) (lambda : Nat) : Except BErr (Bool × FKSBSet α) :=
  let size_ := keys.length
  let jsize_index := pow2UpperSizeIndex (size_ / lambda)
  let jumps := resizeD prev.jumps (pow2UpperSize jsize_index) (0, 0)
  let elements := resizeD prev.elements 1 default
  let mask := (resizeD prev.mask 1 false).set 0 false
  match fksClassify h pred jsize_index
      (List.replicate jumps.length []) keys with
  | .error e => .error e
  | .ok buckets =>
    match fksbPlaceBuckets buckets (List.range jumps.length) 1 jumps
        elements mask with
    | (done, c, js, es, m) => .ok (done, ⟨c, jsize_index, js, es, m⟩)

/-- Variant B `find` (`UseMask=true`, lines 126-141): end cursor is index
`capacity_`; a slot passes only when its mask bit is set and the predicate
holds. -/
def fksbFind (h : α → Nat) (pred : α → α → Bool) (s : FKSBSet α)
    (x : α) : Nat :=
  let hash := hashv h x
  let pos := fksbElementPosition hash
    (s.jumps.getD (pow2UpperPosition hash s.jsize_index) (0, 0))
  if s.mask.getD pos false && pred x (s.elements.getD pos default) then pos
  else s.capacity_

/-- The raw element position Variant B `find` computes for a given hash. -/
def fksbFindPos (s : FKSBSet α) (hash : Nat) : Nat :=
  fksbElementPosition hash
    (s.jumps.getD (pow2UpperPosition hash s.jsize_index) (0, 0))

/-- The Variant B `begin()..end()` walk (lines 121-122:
`elements.begin()` to `elements.begin()+capacity_`): every slot is
visited, with no filtering through `mask`. -/
def fksbIterKeys (s : FKSBSet α) : List α :=
  s.elements.take s.capacity_

/-- The walk the specification describes for Variant B (slots `0..C` with
the unoccupied slots filtered out via `Mask`), stated from the spec's words
for comparison with `fksbIterKeys`, which embeds the source. -/
def fksbIterKeysMasked (s : FKSBSet α) : List α :=
  (((s.elements.take s.capacity_).zip (s.mask.take s.capacity_)).filter
    (fun em => em.2)).map Prod.fst

/-- Default-initialised Variant B object. -/
def fksbInit : FKSBSet α := ⟨0, 0, [], [], []⟩

/-- The Variant B constructor loop resumed on a given object state. -/
def fksbMkFrom (h : α → Nat) (pred : α → α → Bool) (keys : List α)
    (prev : FKSBSet α) (lambda : Nat) : Except BErr (FKSBSet α) :=
  driverFrom (fun s lam => fksbConstruct h pred s keys lam) prev lambda

/-- Variant B `perfect_set(first, last, lambda)`. -/
def fksbMk (h : α → Nat) (pred : α → α → Bool) (keys : List α)
    (lambda : Nat) : Except BErr (FKSBSet α) :=
  fksbMkFrom h pred keys fksbInit lambda

end fks

/-! ## Concrete hash tables used by the counterexample theorems -/

/-- Hash table for the displacement-commit-index counterexample (C1). -/
def hashC1 : Nat → Nat
  | 5 => 1
  | 7 => 2 ^ 62 + 1
  | _ => 0

/-- Hash table for the Variant A absent-key position counterexample (C2). -/
def hashC2 : Nat → Nat
  | 0 => 0
  | 1 => 2
  | 2 => 2 ^ 63
  | _ => 3

/-- Hash table for the preempted-duplicate counterexample (C3). -/
def hashC3 : Nat → Nat
  | 10 => 0
  | 11 => 2 ^ 63
  | 12 => 2 ^ 60
  | 20 => 1
  | 21 => 1
  | 30 => 2
  | 31 => 3
  | _ => 4

/-- Hash table for the lambda-halving counterexample (C8). -/
def hashC8 : Nat → Nat
  | 0 => 0
  | 1 => 2 * 2 ^ 60
  | 2 => 3 * 2 ^ 60
  | 3 => 5 * 2 ^ 60
  | 4 => 14 * 2 ^ 60 + 2
  | 5 => 15 * 2 ^ 60 + 2
  | 6 => 1 * 2 ^ 60 + 2
  | _ => 4 * 2 ^ 60 + 2

/-- Hash table for the stale-jump counterexample (C10). -/
def hashC10 : Nat → Nat
  | 0 => 0
  | 1 => 2 ^ 62
  | 2 => 2 ^ 62 + 1
  | 3 => 2 ^ 63
  | 4 => 2 ^ 63 + 1
  | _ => 2 ^ 63 + 2 ^ 61

/-! ## General-purpose lemmas -/

theorem getD_set_self {γ : Type} (l : List γ) (i : Nat) (a d : γ)
    (h : i < l.length) : (l.set i a).getD i d = a := by
  rw [List.getD_eq_getElem?_getD, List.getElem?_set_self h]
  rfl

theorem getD_set_ne {γ : Type} (l : List γ) {i j : Nat} (a d : γ)
    (h : i ≠ j) : (l.set i a).getD j d = l.getD j d := by
  rw [List.getD_eq_getElem?_getD, List.getElem?_set_ne h,
    ← List.getD_eq_getElem?_getD]

theorem getD_replicate {γ : Type} {n i : Nat} (a d : γ) (h : i < n) :
    (List.replicate n a).getD i d = a := by
  rw [List.getD_eq_getElem?_getD, List.getElem?_replicate, if_pos h]
  rfl

theorem length_resizeD {γ : Type} (l : List γ) (n : Nat) (d : γ) :
    (resizeD l n d).length = n := by
  simp only [resizeD, List.length_append, List.length_take,
    List.length_replicate]
  omega

theorem getD_resizeD {γ : Type} (l : List γ) {n i : Nat} (d d' : γ)
    (hi : i < n) :
    (resizeD l n d).getD i d' =
      if i < l.length then l.getD i d' else d := by
  unfold resizeD
  rcases Nat.lt_or_ge i l.length with hl | hl
  · rw [if_pos hl,
      List.getD_append _ _ _ _ (by simp only [List.length_take]; omega),
      List.getD_eq_getElem?_getD, List.getElem?_take, if_pos hi,
      ← List.getD_eq_getElem?_getD]
  · rw [if_neg (by omega),
      List.getD_append_right _ _ _ _ (by simp only [List.length_take]; omega),
      List.getD_eq_getElem?_getD, List.getElem?_replicate,
      if_pos (by simp only [List.length_take]; omega)]
    rfl

theorem getD_resizeD_of_lt_length {γ : Type} (l : List γ) {n i : Nat}
    (d d' : γ) (hi : i < n) (hl : i < l.length) :
    (resizeD l n d).getD i d' = l.getD i d' := by
  rw [getD_resizeD l d d' hi, if_pos hl]

/-- Joining after appending one element to bucket `b` is a permutation of
consing that element to the original join. -/
theorem flatten_set_append_perm {γ : Type} :
    ∀ (l : List (List γ)) (b : Nat) (x : γ), b < l.length →
      (l.set b (l.getD b [] ++ [x])).flatten.Perm (x :: l.flatten)
  | [], b, x, hb => by simp at hb
  | g :: gs, 0, x, _ => by
    rw [List.getD_cons_zero, List.set_cons_zero, List.flatten_cons,
      List.flatten_cons]
    exact (List.perm_append_singleton x g).append_right gs.flatten
  | g :: gs, b + 1, x, hb => by
    rw [List.getD_cons_succ, List.set_cons_succ, List.flatten_cons,
      List.flatten_cons]
    have ih := flatten_set_append_perm gs b x (by simpa using hb)
    exact (ih.append_left g).trans List.perm_middle

/-- Reading every index of a list back yields the list. -/
theorem map_getD_range {γ : Type} (d : γ) (es : List γ) :
    (List.range es.length).map (fun p => es.getD p d) = es := by
  induction es with
  | nil => rfl
  | cons e es ih =>
    rw [List.length_cons, List.range_succ_eq_map, List.map_cons,
      List.map_map, List.getD_cons_zero]
    refine congrArg₂ _ rfl ?_
    have h2 : List.map ((fun p => (e :: es).getD p d) ∘ Nat.succ)
        (List.range es.length) =
        List.map (fun p => es.getD p d) (List.range es.length) :=
      List.map_congr_left (fun a _ => List.getD_cons_succ)
    rw [h2]
    exact ih

/-- If a placement list `P` covers every slot of `es` exactly once and
`es` agrees with it, then `es` is a permutation of the placed values. -/
theorem elems_perm_of_placed {γ : Type} (d : γ) (es : List γ)
    (P : List (Nat × γ))
    (hperm : (P.map Prod.fst).Perm (List.range es.length))
    (hval : ∀ pk ∈ P, es.getD pk.1 d = pk.2) :
    es.Perm (P.map Prod.snd) := by
  have h1 := hperm.map (fun p => es.getD p d)
  rw [map_getD_range d es] at h1
  have h2 : (P.map Prod.fst).map (fun p => es.getD p d) = P.map Prod.snd := by
    rw [List.map_map]
    exact List.map_congr_left (fun pk hpk => hval pk hpk)
  rw [h2] at h1
  exact h1.symm

/-! ## Bit-width characterisation -/

theorem bitWidthAux_zero (f : Nat) : bitWidthAux f 0 = 0 := by
  cases f <;> rfl

theorem bitWidthAux_spec :
    ∀ (f n : Nat), n < 2 ^ f →
      n < 2 ^ bitWidthAux f n ∧ (n ≠ 0 → 2 ^ (bitWidthAux f n - 1) ≤ n)
  | 0, n, hn => by
    have : n = 0 := by simpa using hn
    subst this
    exact ⟨by simp [bitWidthAux], fun h => absurd rfl h⟩
  | f + 1, n, hn => by
    by_cases h0 : n = 0
    · subst h0
      rw [bitWidthAux_zero]
      exact ⟨by omega, fun h => absurd rfl h⟩
    · have hdiv : n / 2 < 2 ^ f := by
        rw [Nat.div_lt_iff_lt_mul (by omega)]
        rw [Nat.pow_succ] at hn
        exact hn
      have ih := bitWidthAux_spec f (n / 2) hdiv
      simp only [bitWidthAux, if_neg h0]
      by_cases h2 : n / 2 = 0
      · have hn1 : n = 1 := by omega
        subst hn1
        rw [h2, bitWidthAux_zero]
        omega
      · have hpos : 1 ≤ bitWidthAux f (n / 2) := by
          rcases f with _ | f
          · exact absurd (by simpa using hdiv) h2
          · simp only [bitWidthAux, if_neg h2]
            omega
        have hup : n / 2 < 2 ^ bitWidthAux f (n / 2) := ih.1
        have hlow := ih.2 h2
        have hsplit : 2 ^ (bitWidthAux f (n / 2) - 1 + 1) =
            2 ^ (bitWidthAux f (n / 2) - 1) * 2 := Nat.pow_succ 2 _
        have hk : bitWidthAux f (n / 2) - 1 + 1 = bitWidthAux f (n / 2) := by
          omega
        rw [hk] at hsplit
        have hsucc : 2 ^ (bitWidthAux f (n / 2) + 1) =
            2 ^ bitWidthAux f (n / 2) * 2 := Nat.pow_succ 2 _
        constructor
        · rw [hsucc]
          omega
        · intro _
          rw [Nat.add_sub_cancel, hsplit]
          omega

theorem bitWidth_spec (n : Nat) :
    n < 2 ^ bitWidth n ∧ (n ≠ 0 → 2 ^ (bitWidth n - 1) ≤ n) :=
  bitWidthAux_spec n n (Nat.lt_two_pow n)

theorem bitWidth_le_of_lt_two_pow {n j : Nat} (hn : n ≠ 0)
    (hj : n < 2 ^ j) : bitWidth n ≤ j := by
  by_contra hlt
  have h1 : j ≤ bitWidth n - 1 := by omega
  have h2 := (bitWidth_spec n).2 hn
  have : 2 ^ j ≤ 2 ^ (bitWidth n - 1) := Nat.pow_le_pow_right (by omega) h1
  omega

theorem bitWidth_pos {n : Nat} (hn : n ≠ 0) : 1 ≤ bitWidth n := by
  by_contra hlt
  have h0 : bitWidth n = 0 := by omega
  have := (bitWidth_spec n).1
  rw [h0] at this
  omega

/-! ## Sorted bucket order -/

theorem insertBySizeDesc_perm (sz : Nat → Nat) (i : Nat) :
    ∀ l : List Nat, (insertBySizeDesc sz i l).Perm (i :: l)
  | [] => by simp [insertBySizeDesc]
  | j :: rest => by
    simp only [insertBySizeDesc]
    by_cases h : sz i ≤ sz j
    · rw [if_pos h]
      exact ((insertBySizeDesc_perm sz i rest).cons j).trans
        (List.Perm.swap i j rest)
    · rw [if_neg h]

theorem insertBySizeDesc_pairwise (sz : Nat → Nat) (i : Nat) :
    ∀ l : List Nat, List.Pairwise (fun a b => sz b ≤ sz a) l →
      List.Pairwise (fun a b => sz b ≤ sz a) (insertBySizeDesc sz i l)
  | [], _ => by simp [insertBySizeDesc]
  | j :: rest, hp => by
    rw [List.pairwise_cons] at hp
    simp only [insertBySizeDesc]
    by_cases h : sz i ≤ sz j
    · rw [if_pos h, List.pairwise_cons]
      refine ⟨fun a ha => ?_, insertBySizeDesc_pairwise sz i rest hp.2⟩
      have hmem := (insertBySizeDesc_perm sz i rest).mem_iff.mp ha
      rcases List.mem_cons.mp hmem with rfl | hmem2
      · exact h
      · exact hp.1 a hmem2
    · rw [if_neg h, List.pairwise_cons]
      refine ⟨fun a ha => ?_, List.pairwise_cons.mpr hp⟩
      rcases List.mem_cons.mp ha with rfl | h2
      · omega
      · have := hp.1 a h2
        omega

theorem sortedBucketIndices_aux (sz : Nat → Nat) :
    ∀ (xs : List Nat) (acc : List Nat),
      List.Pairwise (fun a b => sz b ≤ sz a) acc →
      (xs.foldl (fun acc i => insertBySizeDesc sz i acc) acc).Perm
          (acc ++ xs) ∧
        List.Pairwise (fun a b => sz b ≤ sz a)
          (xs.foldl (fun acc i => insertBySizeDesc sz i acc) acc)
  | [], acc, hacc => ⟨by simp, hacc⟩
  | x :: xs, acc, hacc => by
    simp only [List.foldl_cons]
    have hstep := insertBySizeDesc_pairwise sz x acc hacc
    have ih := sortedBucketIndices_aux sz xs (insertBySizeDesc sz x acc) hstep
    refine ⟨ih.1.trans ?_, ih.2⟩
    exact ((insertBySizeDesc_perm sz x acc).append_right xs).trans
      (@List.perm_middle Nat x acc xs).symm

theorem sortedBucketIndices_perm (sz : Nat → Nat) (n : Nat) :
    (sortedBucketIndices sz n).Perm (List.range n) := by
  simpa [sortedBucketIndices] using
    (sortedBucketIndices_aux sz (List.range n) [] (by simp)).1

theorem sortedBucketIndices_pairwise (sz : Nat → Nat) (n : Nat) :
    List.Pairwise (fun a b => sz b ≤ sz a) (sortedBucketIndices sz n) :=
  (sortedBucketIndices_aux sz (List.range n) [] (by simp)).2

/-! ## Constructor-loop (driver) lemmas -/

theorem driverFuel_zero_lam {σ : Type}
    (attempt : σ → Nat → Except BErr (Bool × σ)) (f : Nat) (prev : σ) :
    driverFuel attempt f prev 0 = .error .constructionFailure := by
  cases f <;> simp [driverFuel]

theorem driverFuel_congr {σ : Type}
    (attempt : σ → Nat → Except BErr (Bool × σ)) :
    ∀ (f f' : Nat) (prev : σ) (lam : Nat), lam ≤ f → lam ≤ f' →
      driverFuel attempt f prev lam = driverFuel attempt f' prev lam := by
  intro f
  induction f with
  | zero =>
    intro f' prev lam hf _
    have : lam = 0 := by omega
    subst this
    rw [driverFuel_zero_lam, driverFuel_zero_lam]
  | succ f ih =>
    intro f' prev lam hf hf'
    by_cases h0 : lam = 0
    · subst h0
      rw [driverFuel_zero_lam, driverFuel_zero_lam]
    · obtain ⟨f'', rfl⟩ : ∃ f'', f' = f'' + 1 := ⟨f' - 1, by omega⟩
      simp only [driverFuel, if_neg h0]
      rcases hatt : attempt prev lam with e | ⟨b, s⟩
      · rfl
      · cases b
        · exact ih f'' s (lam / 2) (by omega) (by omega)
        · rfl

theorem driverFrom_zero {σ : Type}
    (attempt : σ → Nat → Except BErr (Bool × σ)) (prev : σ) :
    driverFrom attempt prev 0 = .error .constructionFailure := rfl

theorem driverFrom_succ {σ : Type}
    (attempt : σ → Nat → Except BErr (Bool × σ)) (prev : σ)
    {lam : Nat} (hlam : lam ≠ 0) :
    driverFrom attempt prev lam =
      match attempt prev lam with
      | .error e => .error e
      | .ok (true, s) => .ok s
      | .ok (false, s) => driverFrom attempt s (lam / 2) := by
  obtain ⟨f, rfl⟩ : ∃ f, lam = f + 1 := ⟨lam - 1, by omega⟩
  show driverFuel attempt (f + 1) prev (f + 1) = _
  simp only [driverFuel, if_neg hlam]
  rcases hatt : attempt prev (f + 1) with e | ⟨b, s⟩
  · rfl
  · cases b
    · exact driverFuel_congr attempt f ((f + 1) / 2) s ((f + 1) / 2)
        (by omega) (by omega)
    · rfl

theorem allFailFrom_zero {σ : Type}
    (attempt : σ → Nat → Except BErr (Bool × σ)) (prev : σ) :
    allFailFrom attempt prev 0 := by
  rw [allFailFrom]
  simp

theorem allFailFrom_succ {σ : Type}
    (attempt : σ → Nat → Except BErr (Bool × σ)) (prev : σ)
    {lam : Nat} (hlam : lam ≠ 0) :
    allFailFrom attempt prev lam ↔
      ∃ s, attempt prev lam = .ok (false, s) ∧
        allFailFrom attempt s (lam / 2) := by
  rw [allFailFrom]
  rw [dif_neg hlam]
  rcases hatt : attempt prev lam with e | ⟨b, s⟩
  · simp
  · cases b
    · simp
    · simp

/-- The driver raises `construction_failure` exactly when every attempt of
the halving sequence returns `false`, provided the attempt function never
itself produces that error (both `construct`s only throw the duplicate
diagnostics). -/
theorem driverFrom_CF_iff {σ : Type}
    (attempt : σ → Nat → Except BErr (Bool × σ))
    (hCF : ∀ s lam, attempt s lam ≠ .error .constructionFailure) :
    ∀ (lam : Nat) (prev : σ),
      driverFrom attempt prev lam = .error .constructionFailure ↔
        allFailFrom attempt prev lam := by
  intro lam
  induction lam using Nat.strong_induction_on with
  | _ lam ih =>
    intro prev
    by_cases h0 : lam = 0
    · subst h0
      simp [driverFrom_zero, allFailFrom_zero]
    · rw [driverFrom_succ attempt prev h0, allFailFrom_succ attempt prev h0]
      rcases hatt : attempt prev lam with e | ⟨b, s⟩
      · constructor
        · intro he
          have he2 : e = .constructionFailure := by injection he
          subst he2
          exact absurd hatt (hCF prev lam)
        · rintro ⟨s, hs, -⟩
          simp at hs
      · cases b
        · simpa using ih (lam / 2) (Nat.div_lt_self (by omega) (by omega)) s
        · simp

/-! ## The `construct` calls never throw `construction_failure` -/

theorem hdDupScan_ne_CF {α : Type} (pred : α → α → Bool) :
    ∀ (prev rest : List (α × Nat)) (e : BErr),
      hd.hdDupScan pred prev rest = some e → e ≠ .constructionFailure
  | _, [], e, he => by simp [hd.hdDupScan] at he
  | prev, x :: rest, e, he => by
    simp only [hd.hdDupScan] at he
    rcases hf : prev.find? (fun p => p.2 == x.2) with _ | p
    · rw [hf] at he
      exact hdDupScan_ne_CF pred (prev ++ [x]) rest e he
    · rw [hf] at he
      have he2 : (if pred x.1 p.1 then BErr.duplicateElement
          else BErr.duplicateHash) = e := by injection he
      subst he2
      by_cases hp : pred x.1 p.1 <;> simp [hp]

theorem hdPlaceBuckets_error {α : Type} [Inhabited α] (pred : α → α → Bool)
    (size_ size_index : Nat) (buckets : List (List (α × Nat))) :
    ∀ (rest : List (Nat × Nat)) (mask : List Bool) (elements : List α)
      (displacements : List (Nat × Nat)) (e : BErr),
      hd.hdPlaceBuckets pred size_ size_index buckets rest mask elements
          displacements = .error e →
        e ≠ .constructionFailure
  | [], _, _, _, e, he => by simp [hd.hdPlaceBuckets] at he
  | (i, bi) :: rest, mask, elements, displacements, e, he => by
    simp only [hd.hdPlaceBuckets] at he
    by_cases hb : (buckets.getD bi []).isEmpty
    · rw [if_pos hb] at he
      simp at he
    · rw [if_neg hb] at he
      rcases hdup : hd.hdDupScan pred [] (buckets.getD bi []) with _ | e'
      · rw [hdup] at he
        rcases hs : hd.hdSearchDisp size_ size_index (buckets.getD bi [])
            mask (hd.hdCandidates (pow2UpperSize size_index) size_index) with
          _ | ⟨d, m1, pl⟩
        · rw [hs] at he
          simp at he
        · rw [hs] at he
          exact hdPlaceBuckets_error pred size_ size_index buckets rest m1 _ _
            e he
      · rw [hdup] at he
        have he2 : e' = e := by injection he
        subst he2
        exact hdDupScan_ne_CF pred [] _ e' hdup

theorem hdConstruct_ne_CF {α : Type} [Inhabited α] (h : α → Nat)
    (pred : α → α → Bool) (prev : hd.HDSet α) (keys : List α) (lam : Nat) :
    hd.hdConstruct h pred prev keys lam ≠ .error .constructionFailure := by
  intro hc
  simp only [hd.hdConstruct] at hc
  rcases hp : hd.hdPlaceBuckets pred keys.length
      (pow2UpperSizeIndex (keys.length + 1))
      (hd.hdBuckets h (pow2LowerSizeIndex (keys.length / lam)) keys)
      (sortedBucketIndices _ _).enum (List.replicate keys.length false)
      (resizeD prev.elements keys.length default)
      (resizeD prev.displacements
        (pow2LowerSize (pow2LowerSizeIndex (keys.length / lam))) (0, 0)) with
    e | ⟨done, es, ds⟩
  · rw [hp] at hc
    have he2 : e = .constructionFailure := by injection hc
    subst he2
    exact hdPlaceBuckets_error _ _ _ _ _ _ _ _ _ hp rfl
  · rw [hp] at hc
    simp at hc

theorem fksClassify_ne_CF {α : Type} (h : α → Nat) (pred : α → α → Bool)
    (jsize_index : Nat) :
    ∀ (keys : List α) (bs : List (List (α × Nat))) (e : BErr),
      fks.fksClassify h pred jsize_index bs keys = .error e →
        e ≠ .constructionFailure
  | [], bs, e, he => by simp [fks.fksClassify] at he
  | k :: rest, bs, e, he => by
    simp only [fks.fksClassify] at he
    rcases hf : (bs.getD (pow2UpperPosition (hashv h k) jsize_index) []).find?
        (fun p => p.2 == hashv h k) with _ | p
    · rw [hf] at he
      exact fksClassify_ne_CF h pred jsize_index rest _ e he
    · rw [hf] at he
      have he2 : (if pred p.1 k then BErr.duplicateElement
          else BErr.duplicateHash) = e := by injection he
      subst he2
      by_cases hp : pred p.1 k <;> simp [hp]

theorem fksaConstruct_ne_CF {α : Type} [Inhabited α] (h : α → Nat)
    (pred : α → α → Bool) (prev : fks.FKSASet α) (keys : List α)
    (lam : Nat) :
    fks.fksaConstruct h pred prev keys lam ≠ .error .constructionFailure := by
  intro hc
  simp only [fks.fksaConstruct] at hc
  rcases hcl : fks.fksClassify h pred
      (pow2UpperSizeIndex (keys.length / lam))
      (List.replicate (resizeD prev.jumps
        (resizeD prev.positions
          (pow2UpperSize (pow2UpperSizeIndex (keys.length / lam))) 0).length
        fks.fksaJmpDefault).length []) keys with e | buckets
  · rw [hcl] at hc
    have he2 : e = .constructionFailure := by injection hc
    subst he2
    exact fksClassify_ne_CF _ _ _ _ _ _ hcl rfl
  · rw [hcl] at hc
    simp at hc

theorem fksbConstruct_ne_CF {α : Type} [Inhabited α] (h : α → Nat)
    (pred : α → α → Bool) (prev : fks.FKSBSet α) (keys : List α)
    (lam : Nat) :
    fks.fksbConstruct h pred prev keys lam ≠ .error .constructionFailure := by
  intro hc
  simp only [fks.fksbConstruct] at hc
  rcases hcl : fks.fksClassify h pred
      (pow2UpperSizeIndex (keys.length / lam))
      (List.replicate (resizeD prev.jumps
        (pow2UpperSize (pow2UpperSizeIndex (keys.length / lam)))
        (0, 0)).length []) keys with e | buckets
  · rw [hcl] at hc
    have he2 : e = .constructionFailure := by injection hc
    subst he2
    exact fksClassify_ne_CF _ _ _ _ _ _ hcl rfl
  · rw [hcl] at hc
    simp at hc

/-! ## HD bucket classification -/

namespace hd

variable {α : Type}

theorem hdBucketsAux_length (h : α → Nat) (d : Nat) :
    ∀ (keys : List α) (acc : List (List (α × Nat))),
      (keys.foldl
        (fun bs k =>
          let hv := hashv h k
          let b := pow2LowerPosition hv d
          bs.set b (bs.getD b [] ++ [(k, hv)])) acc).length = acc.length
  | [], _ => rfl
  | k :: rest, acc => by
    rw [List.foldl_cons]
    rw [hdBucketsAux_length h d rest]
    exact List.length_set acc _ _

theorem hdBuckets_length (h : α → Nat) (d : Nat) (keys : List α) :
    (hdBuckets h d keys).length = pow2LowerSize d := by
  unfold hdBuckets
  rw [hdBucketsAux_length, List.length_replicate]

theorem hdBucketsAux_flatten (h : α → Nat) (d : Nat) :
    ∀ (keys : List α) (acc : List (List (α × Nat))),
      pow2LowerSize d ≤ acc.length →
      (keys.foldl
        (fun bs k =>
          let hv := hashv h k
          let b := pow2LowerPosition hv d
          bs.set b (bs.getD b [] ++ [(k, hv)])) acc).flatten.Perm
        (acc.flatten ++ keys.map (fun k => (k, hashv h k)))
  | [], acc, _ => by simp
  | k :: rest, acc, hlen => by
    rw [List.foldl_cons]
    have hb : pow2LowerPosition (hashv h k) d < acc.length := by
      have : pow2LowerPosition (hashv h k) d ≤ d := Nat.and_le_right
      have : pow2LowerPosition (hashv h k) d < pow2LowerSize d := by
        unfold pow2LowerSize
        omega
      omega
    have ih := hdBucketsAux_flatten h d rest
      (acc.set (pow2LowerPosition (hashv h k) d)
        (acc.getD (pow2LowerPosition (hashv h k) d) [] ++ [(k, hashv h k)]))
      (by rw [List.length_set]; exact hlen)
    refine ih.trans ?_
    have hset := flatten_set_append_perm acc
      (pow2LowerPosition (hashv h k) d) (k, hashv h k) hb
    refine (hset.append_right _).trans ?_
    rw [List.map_cons]
    exact List.perm_middle.symm

theorem hdBuckets_flatten_perm (h : α → Nat) (d : Nat) (keys : List α) :
    (hdBuckets h d keys).flatten.Perm
      (keys.map (fun k => (k, hashv h k))) := by
  have := hdBucketsAux_flatten h d keys
    (List.replicate (pow2LowerSize d) []) (by rw [List.length_replicate])
  simpa [hdBuckets, List.flatten_replicate_nil] using this

theorem hdBucketsAux_mem (h : α → Nat) (d : Nat) (K : α → Prop) :
    ∀ (keys : List α) (acc : List (List (α × Nat))),
      (∀ k ∈ keys, K k) →
      (∀ b e, e ∈ acc.getD b [] →
        K e.1 ∧ e.2 = hashv h e.1 ∧ pow2LowerPosition e.2 d = b) →
      (∀ b e, e ∈ (keys.foldl
        (fun bs k =>
          let hv := hashv h k
          let b := pow2LowerPosition hv d
          bs.set b (bs.getD b [] ++ [(k, hv)])) acc).getD b [] →
        K e.1 ∧ e.2 = hashv h e.1 ∧ pow2LowerPosition e.2 d = b)
  | [], _, _, hacc => hacc
  | k :: rest, acc, hK, hacc => by
    rw [List.foldl_cons]
    refine hdBucketsAux_mem h d K rest _
      (fun k' hk' => hK k' (List.mem_cons_of_mem k hk')) ?_
    intro b' e' he'
    by_cases hbb : b' = pow2LowerPosition (hashv h k) d
    · subst hbb
      by_cases hblt : pow2LowerPosition (hashv h k) d < acc.length
      · rw [getD_set_self _ _ _ _ hblt] at he'
        rcases List.mem_append.mp he' with hold | hnew
        · exact hacc _ _ hold
        · have : e' = (k, hashv h k) := by simpa using hnew
          subst this
          exact ⟨hK k (List.mem_cons_self k rest), rfl, rfl⟩
      · rw [List.getD_eq_getElem?_getD, List.getElem?_set,
          if_pos rfl, if_neg hblt] at he'
        exact absurd he' (by simp)
    · rw [getD_set_ne _ _ _ (fun hx => hbb hx.symm)] at he'
      exact hacc _ _ he'

theorem hdBuckets_mem (h : α → Nat) (d : Nat) (keys : List α) :
    ∀ b e, e ∈ (hdBuckets h d keys).getD b [] →
      e.1 ∈ keys ∧ e.2 = hashv h e.1 ∧ pow2LowerPosition e.2 d = b := by
  refine hdBucketsAux_mem h d (fun k => k ∈ keys) keys _
    (fun k hk => hk) ?_
  intro b e he
  rw [List.getD_eq_getElem?_getD, List.getElem?_replicate] at he
  by_cases hb : b < pow2LowerSize d
  · rw [if_pos hb] at he
    exact absurd he (by simp)
  · rw [if_neg hb] at he
    exact absurd he (by simp)

end hd

/-! ## FKS bucket classification -/

namespace fks

variable {α : Type}

theorem fksClassify_ok_length (h : α → Nat) (pred : α → α → Bool)
    (j : Nat) :
    ∀ (keys : List α) (bs bs' : List (List (α × Nat))),
      fksClassify h pred j bs keys = .ok bs' → bs'.length = bs.length
  | [], bs, bs', hc => by
    simp only [fksClassify] at hc
    injection hc with hc
    rw [← hc]
  | k :: rest, bs, bs', hc => by
    simp only [fksClassify] at hc
    rcases hf : (bs.getD (pow2UpperPosition (hashv h k) j) []).find?
        (fun p => p.2 == hashv h k) with _ | p
    · rw [hf] at hc
      rw [fksClassify_ok_length h pred j rest _ bs' hc, List.length_set]
    · rw [hf] at hc
      exact absurd hc (by simp)

theorem fksClassify_flatten (h : α → Nat) (pred : α → α → Bool) (j : Nat) :
    ∀ (keys : List α) (bs bs' : List (List (α × Nat))),
      (∀ k, pow2UpperPosition (hashv h k) j < bs.length) →
      fksClassify h pred j bs keys = .ok bs' →
      bs'.flatten.Perm (bs.flatten ++ keys.map (fun k => (k, hashv h k)))
  | [], bs, bs', _, hc => by
    simp only [fksClassify] at hc
    injection hc with hc
    subst hc
    simp
  | k :: rest, bs, bs', hb, hc => by
    simp only [fksClassify] at hc
    rcases hf : (bs.getD (pow2UpperPosition (hashv h k) j) []).find?
        (fun p => p.2 == hashv h k) with _ | p
    · rw [hf] at hc
      have ih := fksClassify_flatten h pred j rest _ bs'
        (fun k' => by rw [List.length_set]; exact hb k') hc
      refine ih.trans ?_
      have hset := flatten_set_append_perm bs
        (pow2UpperPosition (hashv h k) j) (k, hashv h k) (hb k)
      refine (hset.append_right _).trans ?_
      rw [List.map_cons]
      exact List.perm_middle.symm
    · rw [hf] at hc
      exact absurd hc (by simp)

theorem fksClassify_mem (h : α → Nat) (pred : α → α → Bool) (j : Nat)
    (K : α → Prop) :
    ∀ (keys : List α) (bs bs' : List (List (α × Nat))),
      (∀ k ∈ keys, K k) →
      (∀ b e, e ∈ bs.getD b [] →
        K e.1 ∧ e.2 = hashv h e.1 ∧ pow2UpperPosition e.2 j = b) →
      fksClassify h pred j bs keys = .ok bs' →
      (∀ b e, e ∈ bs'.getD b [] →
        K e.1 ∧ e.2 = hashv h e.1 ∧ pow2UpperPosition e.2 j = b)
  | [], bs, bs', _, hacc, hc => by
    simp only [fksClassify] at hc
    injection hc with hc
    subst hc
    exact hacc
  | k :: rest, bs, bs', hK, hacc, hc => by
    simp only [fksClassify] at hc
    rcases hf : (bs.getD (pow2UpperPosition (hashv h k) j) []).find?
        (fun p => p.2 == hashv h k) with _ | p
    · rw [hf] at hc
      refine fksClassify_mem h pred j K rest _ bs'
        (fun k' hk' => hK k' (List.mem_cons_of_mem k hk')) ?_ hc
      intro b' e' he'
      by_cases hbb : b' = pow2UpperPosition (hashv h k) j
      · subst hbb
        by_cases hblt : pow2UpperPosition (hashv h k) j < bs.length
        · rw [getD_set_self _ _ _ _ hblt] at he'
          rcases List.mem_append.mp he' with hold | hnew
          · exact hacc _ _ hold
          · have : e' = (k, hashv h k) := by simpa using hnew
            subst this
            exact ⟨hK k (List.mem_cons_self k rest), rfl, rfl⟩
        · rw [List.getD_eq_getElem?_getD, List.getElem?_set,
            if_pos rfl, if_neg hblt] at he'
          exact absurd he' (by simp)
      · rw [getD_set_ne _ _ _ (fun hx => hbb hx.symm)] at he'
        exact hacc _ _ he'
    · rw [hf] at hc
      exact absurd hc (by simp)

theorem fksClassify_mono (h : α → Nat) (pred : α → α → Bool) (j : Nat) :
    ∀ (keys : List α) (bs bs' : List (List (α × Nat))),
      fksClassify h pred j bs keys = .ok bs' →
      ∀ b e, e ∈ bs.getD b [] → e ∈ bs'.getD b []
  | [], bs, bs', hc => by
    simp only [fksClassify] at hc
    injection hc with hc
    subst hc
    exact fun _ _ he => he
  | k :: rest, bs, bs', hc => by
    simp only [fksClassify] at hc
    rcases hf : (bs.getD (pow2UpperPosition (hashv h k) j) []).find?
        (fun p => p.2 == hashv h k) with _ | p
    · rw [hf] at hc
      intro b e he
      refine fksClassify_mono h pred j rest _ bs' hc b e ?_
      by_cases hbb : b = pow2UpperPosition (hashv h k) j
      · subst hbb
        by_cases hblt : pow2UpperPosition (hashv h k) j < bs.length
        · rw [getD_set_self _ _ _ _ hblt]
          exact List.mem_append.mpr (Or.inl he)
        · rwa [List.set_eq_of_length_le (by omega)]
      · rwa [getD_set_ne _ _ _ (fun hx => hbb hx.symm)]
    · rw [hf] at hc
      exact absurd hc (by simp)

theorem fksClassify_key_mem (h : α → Nat) (pred : α → α → Bool) (j : Nat) :
    ∀ (keys : List α) (bs bs' : List (List (α × Nat))),
      (∀ k, pow2UpperPosition (hashv h k) j < bs.length) →
      fksClassify h pred j bs keys = .ok bs' →
      ∀ k ∈ keys,
        (k, hashv h k) ∈ bs'.getD (pow2UpperPosition (hashv h k) j) []
  | [], _, _, _, _ => by simp
  | k :: rest, bs, bs', hb, hc => by
    simp only [fksClassify] at hc
    rcases hf : (bs.getD (pow2UpperPosition (hashv h k) j) []).find?
        (fun p => p.2 == hashv h k) with _ | p
    · rw [hf] at hc
      intro k' hk'
      rcases List.mem_cons.mp hk' with rfl | hk2
      · refine fksClassify_mono h pred j rest _ bs' hc _ _ ?_
        rw [getD_set_self _ _ _ _ (hb k')]
        exact List.mem_append.mpr (Or.inr (by simp))
      · exact fksClassify_key_mem h pred j rest _ bs'
          (fun k2 => by rw [List.length_set]; exact hb k2) hc k' hk2
    · rw [hf] at hc
      exact absurd hc (by simp)

theorem fksClassify_append (h : α → Nat) (pred : α → α → Bool) (j : Nat) :
    ∀ (l1 l2 : List α) (bs : List (List (α × Nat))),
      fksClassify h pred j bs (l1 ++ l2) =
        match fksClassify h pred j bs l1 with
        | .error e => .error e
        | .ok bs1 => fksClassify h pred j bs1 l2
  | [], l2, bs => by simp [fksClassify]
  | k :: rest, l2, bs => by
    rw [List.cons_append]
    simp only [fksClassify]
    rcases hf : (bs.getD (pow2UpperPosition (hashv h k) j) []).find?
        (fun p => p.2 == hashv h k) with _ | p
    · rw [hf]
      exact fksClassify_append h pred j rest l2 _
    · rw [hf]

theorem fksClassify_distinct_ok (h : α → Nat) (pred : α → α → Bool)
    (j : Nat) :
    ∀ (keys : List α) (bs : List (List (α × Nat))),
      List.Pairwise (fun a b => hashv h a ≠ hashv h b) keys →
      (∀ b e, e ∈ bs.getD b [] → e.2 ∉ keys.map (hashv h)) →
      ∃ bs', fksClassify h pred j bs keys = .ok bs'
  | [], bs, _, _ => ⟨bs, rfl⟩
  | k :: rest, bs, hdist, hacc => by
    rw [List.pairwise_cons] at hdist
    simp only [fksClassify]
    rcases hf : (bs.getD (pow2UpperPosition (hashv h k) j) []).find?
        (fun p => p.2 == hashv h k) with _ | p
    · rw [hf]
      refine fksClassify_distinct_ok h pred j rest _ hdist.2 ?_
      intro b e he
      by_cases hbb : b = pow2UpperPosition (hashv h k) j
      · subst hbb
        by_cases hblt : pow2UpperPosition (hashv h k) j < bs.length
        · rw [getD_set_self _ _ _ _ hblt] at he
          rcases List.mem_append.mp he with hold | hnew
          · intro hmem
            exact hacc _ _ hold (by
              rcases List.mem_map.mp hmem with ⟨k2, hk2, hh⟩
              exact List.mem_map.mpr ⟨k2, List.mem_cons_of_mem k hk2, hh⟩)
          · have : e = (k, hashv h k) := by simpa using hnew
            subst this
            intro hmem
            rcases List.mem_map.mp hmem with ⟨k2, hk2, hh⟩
            exact hdist.1 k2 hk2 hh.symm
        · rw [List.getD_eq_getElem?_getD, List.getElem?_set,
            if_pos rfl, if_neg hblt] at he
          exact absurd he (by simp)
      · rw [getD_set_ne _ _ _ (fun hx => hbb hx.symm)] at he
        intro hmem
        exact hacc _ _ he (by
          rcases List.mem_map.mp hmem with ⟨k2, hk2, hh⟩
          exact List.mem_map.mpr ⟨k2, List.mem_cons_of_mem k hk2, hh⟩)
    · exfalso
      have hp := List.find?_some hf
      have hpmem := List.mem_of_find?_eq_some hf
      have := hacc _ _ hpmem
      exact this (List.mem_map.mpr ⟨k, List.mem_cons_self k rest,
        by have := hp; simp at this; omega⟩)

end fks

theorem hashv_lt {α : Type} (h : α → Nat) (x : α) : hashv h x < 2 ^ 64 :=
  Nat.mod_lt _ (by norm_num)

theorem pow2UpperPosition_lt {hv : Nat} (j : Nat) (hhv : hv < 2 ^ 64) :
    pow2UpperPosition hv j < pow2UpperSize j := by
  unfold pow2UpperPosition pow2UpperSize
  rw [Nat.shiftRight_eq_div_pow, Nat.shiftLeft_eq, one_mul]
  by_cases hj : j ≤ 64
  · rw [Nat.div_lt_iff_lt_mul (Nat.pos_pow_of_pos j (by omega))]
    calc hv < 2 ^ 64 := hhv
      _ = 2 ^ (64 - j) * 2 ^ j := by rw [← Nat.pow_add]; congr 1; omega
  · have h1 : hv / 2 ^ j = 0 := Nat.div_eq_of_lt (by
      calc hv < 2 ^ 64 := hhv
        _ ≤ 2 ^ j := Nat.pow_le_pow_right (by omega) (by omega))
    rw [h1]
    exact Nat.pos_pow_of_pos _ (by omega)

namespace fks

variable {α : Type}

/-- Classification of an input holding exactly one hash-colliding pair
`(a, aa)` (`a` inserted first): the walk of `aa`'s bucket finds `a` and
throws `duplicate_element` exactly when `pred a aa` holds. -/
theorem fksClassify_dup_error (h : α → Nat) (pred : α → α → Bool) (j : Nat)
    (pre mid post : List α) (a aa : α) (bs : List (List (α × Nat)))
    (hE : ∀ b, bs.getD b [] = [])
    (hbl : ∀ k : α, pow2UpperPosition (hashv h k) j < bs.length)
    (hh : hashv h a = hashv h aa)
    (hdist : List.Pairwise (fun x y => hashv h x ≠ hashv h y)
      (pre ++ a :: mid)) :
    fksClassify h pred j bs ((pre ++ a :: mid) ++ aa :: post) =
      .error (if pred a aa then .duplicateElement else .duplicateHash) := by
  obtain ⟨bs1, hbs1⟩ :=
    fksClassify_distinct_ok h pred j (pre ++ a :: mid) bs hdist
      (fun b e he => by rw [hE b] at he; exact absurd he (by simp))
  rw [fksClassify_append, hbs1]
  have hlen1 : bs1.length = bs.length :=
    fksClassify_ok_length h pred j _ bs bs1 hbs1
  have hmem1 := fksClassify_mem h pred j (fun k => k ∈ pre ++ a :: mid)
    (pre ++ a :: mid) bs bs1 (fun k hk => hk)
    (fun b e he => by rw [hE b] at he; exact absurd he (by simp)) hbs1
  have hamem := fksClassify_key_mem h pred j (pre ++ a :: mid) bs bs1 hbl
    hbs1 a (by simp)
  simp only [fksClassify]
  have hfind : ∃ p0, (bs1.getD (pow2UpperPosition (hashv h aa) j) []).find?
      (fun p => p.2 == hashv h aa) = some p0 := by
    rcases hf : (bs1.getD (pow2UpperPosition (hashv h aa) j) []).find?
        (fun p => p.2 == hashv h aa) with _ | p0
    · exfalso
      have := List.find?_eq_none.mp hf (a, hashv h a) (by rw [← hh]; exact hamem)
      simp [hh] at this
    · exact ⟨p0, hf⟩
  obtain ⟨p0, hp0⟩ := hfind
  rw [hp0]
  have hp0mem := List.mem_of_find?_eq_some hp0
  have hp0hash : p0.2 = hashv h aa := by
    have := List.find?_some hp0
    simpa using this
  have hp0props := hmem1 _ _ hp0mem
  have hp0a : p0.1 = a := by
    by_contra hne
    have hsymm : Symmetric (fun x y : α => hashv h x ≠ hashv h y) :=
      fun x y hxy => fun he => hxy he.symm
    have := hdist.forall hsymm hp0props.1 (by simp) hne
    rw [hp0props.2.1] at hp0hash
    rw [hp0hash, hh] at this
    exact this rfl
  exact congrArg Except.error (by rw [hp0a])

end fks

/-! ## Write folds -/

theorem writes_foldl {γ : Type} (d : γ) :
    ∀ (W : List (Nat × γ)) (es : List γ),
      (W.map Prod.fst).Nodup →
      (∀ q ∈ W.map Prod.fst, q < es.length) →
      (W.foldl (fun a pk => a.set pk.1 pk.2) es).length = es.length ∧
      (∀ pk ∈ W,
        (W.foldl (fun a pk => a.set pk.1 pk.2) es).getD pk.1 d = pk.2) ∧
      (∀ q, q ∉ W.map Prod.fst →
        (W.foldl (fun a pk => a.set pk.1 pk.2) es).getD q d = es.getD q d)
  | [], es, _, _ => ⟨rfl, by simp, fun _ _ => rfl⟩
  | (p, k) :: W, es, hnodup, hlt => by
    rw [List.map_cons, List.nodup_cons] at hnodup
    have hplen : p < es.length := hlt p (by simp)
    have ih := writes_foldl d W (es.set p k) hnodup.2
      (fun q hq => by rw [List.length_set]; exact hlt q (by simp [hq]))
    rw [List.foldl_cons]
    refine ⟨by rw [ih.1, List.length_set], ?_, ?_⟩
    · intro pk hpk
      rcases List.mem_cons.mp hpk with rfl | hmem
      · rw [ih.2.2 p (by simpa using hnodup.1)]
        exact getD_set_self es p k d hplen
      · exact ih.2.1 pk hmem
    · intro q hq
      rw [List.map_cons, List.mem_cons] at hq
      push_neg at hq
      rw [ih.2.2 q hq.2]
      exact getD_set_ne es k d (fun hx => hq.1 hx.symm)

/-! ## HD per-candidate placement -/

namespace hd

variable {α : Type}

theorem hdTryPlace_some (size_ si : Nat) (d : Nat × Nat) :
    ∀ (bucket : List (α × Nat)) (mask : List Bool) (placed : List (Nat × α))
      (m' : List Bool) (pl' : List (Nat × α)),
      mask.length = size_ →
      hdTryPlace size_ si d mask placed bucket = some (m', pl') →
      pl' = placed ++
          bucket.map (fun e => (hdElementPosition si e.2 d, e.1)) ∧
        (bucket.map (fun e => hdElementPosition si e.2 d)).Nodup ∧
        (∀ e ∈ bucket, hdElementPosition si e.2 d < size_ ∧
          mask.getD (hdElementPosition si e.2 d) false = false) ∧
        m'.length = size_ ∧
        (∀ q, m'.getD q false = true ↔
          (mask.getD q false = true ∨
            q ∈ bucket.map (fun e => hdElementPosition si e.2 d)))
  | [], mask, placed, m', pl', hlen, hp => by
    simp only [hdTryPlace] at hp
    injection hp with hp
    injection hp with h1 h2
    subst h1
    subst h2
    exact ⟨by simp, by simp, by simp, hlen, fun q => by simp⟩
  | (k, hv) :: bucket, mask, placed, m', pl', hlen, hp => by
    simp only [hdTryPlace] at hp
    by_cases hge : size_ ≤ hdElementPosition si hv d
    · rw [if_pos hge] at hp
      exact absurd hp (by simp)
    · rw [if_neg hge] at hp
      by_cases hocc : mask.getD (hdElementPosition si hv d) false
      · rw [if_pos hocc] at hp
        exact absurd hp (by simp)
      · rw [if_neg hocc] at hp
        have hposlt : hdElementPosition si hv d < size_ := by omega
        have ih := hdTryPlace_some size_ si d bucket
          (mask.set (hdElementPosition si hv d) true)
          (placed ++ [(hdElementPosition si hv d, k)]) m' pl'
          (by rw [List.length_set]; exact hlen) hp
        have hmaskset : ∀ q,
            (mask.set (hdElementPosition si hv d) true).getD q false = true ↔
              (mask.getD q false = true ∨ q = hdElementPosition si hv d) := by
          intro q
          by_cases hq : q = hdElementPosition si hv d
          · subst hq
            rw [getD_set_self _ _ _ _ (by omega)]
            simp
          · rw [getD_set_ne _ _ _ (fun hx => hq hx.symm)]
            simp [hq]
        refine ⟨?_, ?_, ?_, ih.2.2.2.1, ?_⟩
        · rw [ih.1, List.map_cons, List.append_assoc]
          rfl
        · rw [List.map_cons, List.nodup_cons]
          refine ⟨fun hmem => ?_, ih.2.1⟩
          rcases List.mem_map.mp hmem with ⟨e, he, hpos⟩
          have h2 := (ih.2.2.1 e he).2
          rw [hpos, getD_set_self _ _ _ _ (by omega)] at h2
          exact absurd h2 (by simp)
        · intro e he
          rcases List.mem_cons.mp he with rfl | hmem
          · exact ⟨hposlt, by simpa using hocc⟩
          · have h2 := ih.2.2.1 e hmem
            refine ⟨h2.1, ?_⟩
            have h3 := h2.2
            by_cases heq : hdElementPosition si e.2 d =
                hdElementPosition si hv d
            · rw [heq, getD_set_self _ _ _ _ (by omega)] at h3
              exact absurd h3 (by simp)
            · rw [getD_set_ne _ _ _ (fun hx => heq hx.symm)] at h3
              exact h3
        · intro q
          rw [ih.2.2.2.2 q, hmaskset q, List.map_cons, List.mem_cons]
          exact or_assoc

theorem hdTryPlace_some_of (size_ si : Nat) (d : Nat × Nat) :
    ∀ (bucket : List (α × Nat)) (mask : List Bool) (placed : List (Nat × α)),
      mask.length = size_ →
      (bucket.map (fun e => hdElementPosition si e.2 d)).Nodup →
      (∀ e ∈ bucket, hdElementPosition si e.2 d < size_ ∧
        mask.getD (hdElementPosition si e.2 d) false = false) →
      ∃ m' pl', hdTryPlace size_ si d mask placed bucket = some (m', pl')
  | [], mask, placed, _, _, _ => ⟨mask, placed, rfl⟩
  | (k, hv) :: bucket, mask, placed, hlen, hnodup, hgood => by
    simp only [hdTryPlace]
    have h1 : hdElementPosition si hv d < size_ ∧
        mask.getD (hdElementPosition si hv d) false = false :=
      hgood (k, hv) (by simp)
    rw [if_neg (by omega), if_neg (by rw [h1.2]; simp)]
    rw [List.map_cons, List.nodup_cons] at hnodup
    refine hdTryPlace_some_of size_ si d bucket _ _
      (by rw [List.length_set]; exact hlen) hnodup.2 ?_
    intro e he
    have h2 := hgood e (List.mem_cons_of_mem _ he)
    refine ⟨h2.1, ?_⟩
    have hne : hdElementPosition si e.2 d ≠ hdElementPosition si hv d :=
      fun hx => hnodup.1 (hx ▸ List.mem_map.mpr ⟨e, he, rfl⟩)
    rw [getD_set_ne _ _ _ (fun hx => hne hx.symm)]
    exact h2.2

theorem hdSearchDisp_some (size_ si : Nat) (bucket : List (α × Nat))
    (mask : List Bool) :
    ∀ (cands : List (Nat × Nat)) (d : Nat × Nat) (m1 : List Bool)
      (pl : List (Nat × α)),
      hdSearchDisp size_ si bucket mask cands = some (d, m1, pl) →
      hdTryPlace size_ si d mask [] bucket = some (m1, pl)
  | [], _, _, _, hs => by simp [hdSearchDisp] at hs
  | d0 :: cands, d, m1, pl, hs => by
    simp only [hdSearchDisp] at hs
    rcases ht : hdTryPlace size_ si d0 mask [] bucket with _ | ⟨m, p⟩
    · rw [ht] at hs
      exact hdSearchDisp_some size_ si bucket mask cands d m1 pl hs
    · rw [ht] at hs
      injection hs with hs
      injection hs with h1 h2
      injection h2 with h2 h3
      subst h1
      subst h2
      subst h3
      exact ht

end hd

/-! ## FKS Variant A per-candidate placement -/

namespace fks

variable {α : Type}

theorem fksaOffsets_some (jmp : Nat × Nat) :
    ∀ (bucket : List (α × Nat)) (acc offs : List Nat),
      acc.Nodup →
      fksaOffsets jmp acc bucket = some offs →
      offs = acc ++ bucket.map (fun e => fksaElementOffset e.2 jmp) ∧
        offs.Nodup
  | [], acc, offs, hacc, ho => by
    simp only [fksaOffsets] at ho
    injection ho with ho
    subst ho
    exact ⟨by simp, hacc⟩
  | (k, hv) :: bucket, acc, offs, hacc, ho => by
    simp only [fksaOffsets] at ho
    by_cases hc : acc.contains (fksaElementOffset hv jmp)
    · rw [if_pos hc] at ho
      exact absurd ho (by simp)
    · rw [if_neg hc] at ho
      have hnotmem : fksaElementOffset hv jmp ∉ acc := by
        intro hm
        exact hc (List.elem_iff.mpr hm)
      have ih := fksaOffsets_some jmp bucket (acc ++ [fksaElementOffset hv jmp])
        offs (by
          rw [List.nodup_append]
          exact ⟨hacc, by simp, by simpa using hnotmem⟩) ho
      refine ⟨?_, ih.2⟩
      rw [ih.1, List.map_cons, List.append_assoc]
      rfl

theorem fksaSlideCheck_true (size_ : Nat) (mask : List Bool) (p : Nat) :
    ∀ offs : List Nat,
      fksaSlideCheck size_ mask p offs = true ↔
        ∀ off ∈ offs, p + off < size_ ∧ mask.getD (p + off) false = true
  | [] => by simp [fksaSlideCheck]
  | off :: offs => by
    simp only [fksaSlideCheck]
    by_cases hge : size_ ≤ p + off
    · rw [if_pos hge]
      constructor
      · intro hf
        exact absurd hf (by simp)
      · intro hall
        have := (hall off (by simp)).1
        omega
    · rw [if_neg hge]
      by_cases hm : mask.getD (p + off) false = true
      · rw [if_neg (by rw [hm]; decide)]
        rw [fksaSlideCheck_true size_ mask p offs]
        constructor
        · intro hall off2 hoff2
          rcases List.mem_cons.mp hoff2 with rfl | hmem
          · exact ⟨by omega, hm⟩
          · exact hall off2 hmem
        · intro hall off2 hoff2
          exact hall off2 (List.mem_cons_of_mem _ hoff2)
      · have hm2 : mask.getD (p + off) false = false :=
          Bool.eq_false_iff.mpr hm
        rw [if_pos (by rw [hm2]; decide)]
        constructor
        · intro hf
          exact absurd hf (by simp)
        · intro hall
          have hc := (hall off (by simp)).2
          rw [hm2] at hc
          exact absurd hc (by simp)

theorem fksaSlide_some (size_ : Nat) (mask : List Bool) (offs : List Nat) :
    ∀ (cands : List Nat) (p : Nat),
      fksaSlide size_ mask offs cands = some p →
      fksaSlideCheck size_ mask p offs = true
  | [], p, hs => by simp [fksaSlide] at hs
  | c :: cands, p, hs => by
    simp only [fksaSlide] at hs
    by_cases hc : fksaSlideCheck size_ mask c offs
    · rw [if_pos hc] at hs
      injection hs with hs
      subst hs
      exact hc
    · rw [if_neg hc] at hs
      exact fksaSlide_some size_ mask offs cands p hs

theorem fksaSearch_some (size_ : Nat) (bucket : List (α × Nat))
    (mask : List Bool) (max_off : Nat) :
    ∀ (cands : List (Nat × Nat)) (jmp : Nat × Nat) (p : Nat)
      (offs : List Nat),
      fksaSearch size_ bucket mask max_off cands = some (jmp, p, offs) →
      fksaOffsets jmp [] bucket = some offs ∧
        fksaSlideCheck size_ mask p offs = true
  | [], _, _, _, hs => by simp [fksaSearch] at hs
  | (sh, wd) :: cands, jmp, p, offs, hs => by
    simp only [fksaSearch] at hs
    rcases ho : fksaOffsets (α := α) (fksaJmpSet sh wd) [] bucket with
      _ | offs0
    · rw [ho] at hs
      exact fksaSearch_some size_ bucket mask max_off cands jmp p offs hs
    · rw [ho] at hs
      dsimp only at hs
      rcases hsl : fksaSlide size_ mask offs0
          (List.range (size_ - max_off)) with _ | p0
      · rw [hsl] at hs
        exact fksaSearch_some size_ bucket mask max_off cands jmp p offs hs
      · rw [hsl] at hs
        injection hs with hs
        injection hs with h1 h2
        injection h2 with h2 h3
        subst h1
        subst h2
        subst h3
        exact ⟨ho, fksaSlide_some size_ mask _ _ _ hsl⟩

end fks

/-! ## FKS Variant B per-candidate placement -/

namespace fks

variable {α : Type}

theorem fksbWidthShift_mod (sh wd : Nat) (hsh : sh < 256) :
    fksbWidthShift sh wd % 256 = sh := by
  unfold fksbWidthShift
  rw [Nat.shiftLeft_eq]
  have : (2 : Nat) ^ 8 = 256 := by norm_num
  rw [this, Nat.mul_comm, Nat.mul_add_mod]
  exact Nat.mod_eq_of_lt hsh

theorem fksbWidthShift_shr (sh wd : Nat) (hsh : sh < 256) :
    fksbWidthShift sh wd >>> 8 = 2 ^ wd - 1 := by
  unfold fksbWidthShift
  rw [Nat.shiftLeft_eq, Nat.shiftRight_eq_div_pow]
  have h256 : (2 : Nat) ^ 8 = 256 := by norm_num
  rw [h256, Nat.mul_comm, Nat.mul_add_div (by omega),
    Nat.div_eq_of_lt hsh]
  omega

theorem fksbElementPosition_committed (hash p sh wd : Nat)
    (hsh : sh < 256) :
    fksbElementPosition hash (p, fksbWidthShift sh wd) =
      p + ((hash >>> sh) &&& (2 ^ wd - 1)) := by
  unfold fksbElementPosition
  rw [fksbWidthShift_mod sh wd hsh, fksbWidthShift_shr sh wd hsh]

theorem fksbElementPosition_ge (hash : Nat) (jmp : Nat × Nat) :
    jmp.1 ≤ fksbElementPosition hash jmp :=
  Nat.le_add_right _ _

theorem fksbElementPosition_lt (hash p sh wd : Nat) (hsh : sh < 256) :
    fksbElementPosition hash (p, fksbWidthShift sh wd) < p + 2 ^ wd := by
  rw [fksbElementPosition_committed hash p sh wd hsh]
  have h1 : (hash >>> sh) &&& (2 ^ wd - 1) ≤ 2 ^ wd - 1 := Nat.and_le_right
  have h2 : 0 < 2 ^ wd := Nat.pos_pow_of_pos _ (by omega)
  omega

theorem fksbPositions_some (jmp : Nat × Nat) :
    ∀ (bucket : List (α × Nat)) (acc poss : List Nat),
      acc.Nodup →
      fksbPositions jmp acc bucket = some poss →
      poss = acc ++ bucket.map (fun e => fksbElementPosition e.2 jmp) ∧
        poss.Nodup
  | [], acc, poss, hacc, ho => by
    simp only [fksbPositions] at ho
    injection ho with ho
    subst ho
    exact ⟨by simp, hacc⟩
  | (k, hv) :: bucket, acc, poss, hacc, ho => by
    simp only [fksbPositions] at ho
    by_cases hc : acc.contains (fksbElementPosition hv jmp)
    · rw [if_pos hc] at ho
      exact absurd ho (by simp)
    · rw [if_neg hc] at ho
      have hnotmem : fksbElementPosition hv jmp ∉ acc := by
        intro hm
        exact hc (List.elem_iff.mpr hm)
      have ih := fksbPositions_some jmp bucket
        (acc ++ [fksbElementPosition hv jmp]) poss
        (by
          rw [List.nodup_append]
          exact ⟨hacc, by simp, by simpa using hnotmem⟩) ho
      refine ⟨?_, ih.2⟩
      rw [ih.1, List.map_cons, List.append_assoc]
      rfl

theorem fksbCandidates_mem :
    ∀ c ∈ fksbCandidates, c.1 < 56 ∧ c.2 < 64 := by
  intro c hc
  unfold fksbCandidates at hc
  rcases List.mem_flatMap.mp hc with ⟨wd, hwd, hmem⟩
  rcases List.mem_map.mp hmem with ⟨sh, hsh, hc2⟩
  subst hc2
  exact ⟨by simpa using hwd, by simpa using hsh⟩

theorem fksbSearch_some_aux (jmpPos : Nat) (bucket : List (α × Nat)) :
    ∀ (cands : List (Nat × Nat)) (wd ws : Nat) (poss : List Nat),
      (∀ c ∈ cands, c.1 < 56 ∧ c.2 < 64) →
      fksbSearch jmpPos bucket cands = some (wd, ws, poss) →
      ∃ sh, sh < 64 ∧ wd < 56 ∧ ws = fksbWidthShift sh wd ∧
        fksbPositions (jmpPos, ws) [] bucket = some poss
  | [], _, _, _, _, hs => by simp [fksbSearch] at hs
  | (wd0, sh0) :: cands, wd, ws, poss, hb, hs => by
    simp only [fksbSearch] at hs
    rcases hp : fksbPositions (α := α) (jmpPos, fksbWidthShift sh0 wd0) []
        bucket with _ | poss0
    · rw [hp] at hs
      exact fksbSearch_some_aux jmpPos bucket cands wd ws poss
        (fun c hc => hb c (List.mem_cons_of_mem _ hc)) hs
    · rw [hp] at hs
      injection hs with hs
      injection hs with h1 h2
      injection h2 with h2 h3
      subst h1
      subst h2
      subst h3
      have := hb (wd0, sh0) (by simp)
      exact ⟨sh0, this.2, this.1, rfl, hp⟩

theorem fksbSearch_some (jmpPos : Nat) (bucket : List (α × Nat))
    (wd ws : Nat) (poss : List Nat)
    (hs : fksbSearch jmpPos bucket fksbCandidates = some (wd, ws, poss)) :
    ∃ sh, sh < 64 ∧ wd < 56 ∧ ws = fksbWidthShift sh wd ∧
      fksbPositions (jmpPos, ws) [] bucket = some poss :=
  fksbSearch_some_aux jmpPos bucket fksbCandidates wd ws poss
    fksbCandidates_mem hs

end fks

/-! ## FKS Variant A placement loop invariant -/

theorem foldl_pair_split {γ δ ε : Type} (f : γ → ε → γ) (g : δ → ε → δ) :
    ∀ (L : List ε) (x : γ) (y : δ),
      L.foldl (fun st e => (f st.1 e, g st.2 e)) (x, y) =
        (L.foldl f x, L.foldl g y)
  | [], _, _ => rfl
  | e :: L, x, y => by
    rw [List.foldl_cons, List.foldl_cons, List.foldl_cons]
    exact foldl_pair_split f g L (f x e) (g y e)

namespace fks

variable {α : Type} [Inhabited α]

theorem fksaCommit_eq (p : Nat) (offs : List Nat) (bucket : List (α × Nat))
    (es : List α) (m : List Bool) :
    fksaCommit p offs bucket es m =
      (((offs.zip bucket).map
          (fun ob => (p + ob.1, ob.2.1))).foldl
        (fun a pk => a.set pk.1 pk.2) es,
       ((offs.zip bucket).map
          (fun ob => (p + ob.1, false))).foldl
        (fun a pk => a.set pk.1 pk.2) m) := by
  unfold fksaCommit
  rw [List.foldl_map, List.foldl_map]
  exact foldl_pair_split
    (fun (a : List α) (ob : Nat × (α × Nat)) => a.set (p + ob.1) ob.2.1)
    (fun (a : List Bool) (ob : Nat × (α × Nat)) => a.set (p + ob.1) false)
    (offs.zip bucket) es m

theorem fksaPlaceBuckets_spec (size_ : Nat)
    (buckets : List (List (α × Nat))) :
    ∀ (rest : List Nat) (mask : List Bool) (elements : List α)
      (positions : List Nat) (jumps : List (Nat × Nat))
      (P : List (Nat × α)) (es' : List α) (ps' : List Nat)
      (js' : List (Nat × Nat)),
      mask.length = size_ →
      elements.length = size_ →
      jumps.length = positions.length →
      rest.Nodup →
      (∀ b ∈ rest, b < positions.length) →
      List.Pairwise (fun a b =>
        (buckets.getD b []).length ≤ (buckets.getD a []).length) rest →
      (P.map Prod.fst).Nodup →
      (∀ q ∈ P.map Prod.fst, q < size_) →
      (∀ q, q < size_ → (mask.getD q false = false ↔ q ∈ P.map Prod.fst)) →
      (∀ pk ∈ P, elements.getD pk.1 default = pk.2) →
      fksaPlaceBuckets size_ buckets rest mask elements positions jumps =
        (true, es', ps', js') →
      ∃ P' : List (Nat × α),
        (P'.map Prod.fst).Nodup ∧
        (∀ q ∈ P'.map Prod.fst, q < size_) ∧
        (∀ pk ∈ P', es'.getD pk.1 default = pk.2) ∧
        es'.length = size_ ∧
        (P'.map Prod.snd).Perm (P.map Prod.snd ++
          rest.flatMap (fun b => (buckets.getD b []).map Prod.fst)) ∧
        (∀ b ∈ rest, ∀ e ∈ buckets.getD b [],
          fksaElementPosition e.2 (ps'.getD b 0)
            (js'.getD b fksaJmpDefault) < size_) ∧
        (∀ b, b ∉ rest → ps'.getD b 0 = positions.getD b 0 ∧
          js'.getD b fksaJmpDefault = jumps.getD b fksaJmpDefault) ∧
        ps'.length = positions.length ∧ js'.length = jumps.length
  | [], mask, elements, positions, jumps, P, es', ps', js', hmlen, helen,
      _, _, _, _, hPnodup, hPlt, _, hPval, hp => by
    simp only [fksaPlaceBuckets, Prod.mk.injEq, true_and] at hp
    obtain ⟨h1, h2, h3⟩ := hp
    subst h1
    subst h2
    subst h3
    exact ⟨P, hPnodup, hPlt, hPval, helen, by simp, by simp,
      fun b _ => ⟨rfl, rfl⟩, rfl, rfl⟩
  | bi :: rest, mask, elements, positions, jumps, P, es', ps', js', hmlen,
      helen, hjplen, hnodup, hblt, hpair, hPnodup, hPlt, hmask, hPval,
      hp => by
    rw [List.nodup_cons] at hnodup
    rw [List.pairwise_cons] at hpair
    simp only [fksaPlaceBuckets] at hp
    by_cases hbe : (buckets.getD bi []).isEmpty
    · rw [if_pos hbe] at hp
      simp only [Prod.mk.injEq, true_and] at hp
      obtain ⟨h1, h2, h3⟩ := hp
      subst h1
      subst h2
      subst h3
      have hbempty : buckets.getD bi [] = [] := List.isEmpty_iff.mp hbe
      have hallempty : ∀ b ∈ rest, buckets.getD b [] = [] := by
        intro b hb
        have hle := hpair.1 b hb
        rw [hbempty] at hle
        have hlen0 : (buckets.getD b []).length = 0 := by simpa using hle
        exact List.eq_nil_of_length_eq_zero hlen0
      refine ⟨P, hPnodup, hPlt, hPval, helen, ?_, ?_,
        fun b _ => ⟨rfl, rfl⟩, rfl, rfl⟩
      · have hflat : (bi :: rest).flatMap
            (fun b => (buckets.getD b []).map Prod.fst) = [] := by
          rw [List.flatMap_eq_nil_iff]
          intro b hb
          rcases List.mem_cons.mp hb with rfl | hb2
          · rw [hbempty]
            rfl
          · rw [hallempty b hb2]
            rfl
        rw [hflat, List.append_nil]
      · intro b hb e he
        rcases List.mem_cons.mp hb with rfl | hb2
        · rw [hbempty] at he
          exact absurd he (by simp)
        · rw [hallempty b hb2] at he
          exact absurd he (by simp)
    · rw [if_neg hbe] at hp
      rcases hsearch : fksaSearch size_ (buckets.getD bi []) mask
          (bitCeil (buckets.getD bi []).length - 1)
          (fksaCandidates (popcount
            (bitCeil (buckets.getD bi []).length - 1))) with
        _ | ⟨jmp, p, offs⟩
      · rw [hsearch] at hp
        exact absurd hp (by simp)
      · rw [hsearch] at hp
        dsimp only at hp
        rw [fksaCommit_eq] at hp
        obtain ⟨hoffs, hcheck⟩ := fksaSearch_some size_ _ mask _ _ jmp p offs
          hsearch
        obtain ⟨hoffseq, hoffsnodup⟩ :=
          fksaOffsets_some jmp (buckets.getD bi []) [] offs (by simp) hoffs
        rw [List.nil_append] at hoffseq
        rw [fksaSlideCheck_true] at hcheck
        have hziplen : offs.length = (buckets.getD bi []).length := by
          rw [hoffseq, List.length_map]
        have hfst0 : (offs.zip (buckets.getD bi [])).map Prod.fst = offs :=
          List.map_fst_zip offs _ (by omega)
        have hsnd0 : (offs.zip (buckets.getD bi [])).map Prod.snd =
            buckets.getD bi [] :=
          List.map_snd_zip offs _ (by omega)
        have hnewfst :
            ((offs.zip (buckets.getD bi [])).map
              (fun ob => (p + ob.1, ob.2.1))).map Prod.fst =
              offs.map (fun off => p + off) := by
          rw [List.map_map]
          conv_rhs => rw [← hfst0, List.map_map]
          exact List.map_congr_left (fun ob _ => rfl)
        have hnewMfst :
            ((offs.zip (buckets.getD bi [])).map
              (fun ob : Nat × (α × Nat) => (p + ob.1, false))).map Prod.fst =
              offs.map (fun off => p + off) := by
          rw [List.map_map]
          conv_rhs => rw [← hfst0, List.map_map]
          exact List.map_congr_left (fun ob _ => rfl)
        have hnewsnd :
            ((offs.zip (buckets.getD bi [])).map
              (fun ob => (p + ob.1, ob.2.1))).map Prod.snd =
              (buckets.getD bi []).map Prod.fst := by
          rw [List.map_map]
          conv_rhs => rw [← hsnd0, List.map_map]
          exact List.map_congr_left (fun ob _ => rfl)
        have haddinj : Function.Injective (fun off : Nat => p + off) :=
          fun a b hab => by
            have h2 : p + a = p + b := hab
            omega
        have hposnodup : (offs.map (fun off => p + off)).Nodup :=
          hoffsnodup.map haddinj
        have hposlt : ∀ q ∈ offs.map (fun off => p + off), q < size_ := by
          intro q hq
          rcases List.mem_map.mp hq with ⟨off, hoff, rfl⟩
          exact (hcheck off hoff).1
        have hposnotP : ∀ q ∈ offs.map (fun off => p + off),
            q ∉ P.map Prod.fst := by
          intro q hq hmem
          rcases List.mem_map.mp hq with ⟨off, hoff, rfl⟩
          have := (hcheck off hoff).2
          have h2 := (hmask (p + off) ((hcheck off hoff).1)).mpr hmem
          rw [h2] at this
          exact absurd this (by simp)
        have hwE := writes_foldl default
          ((offs.zip (buckets.getD bi [])).map (fun ob => (p + ob.1, ob.2.1)))
          elements (by rw [hnewfst]; exact hposnodup)
          (by rw [hnewfst, helen]; exact hposlt)
        have hwM := writes_foldl false
          ((offs.zip (buckets.getD bi [])).map
            (fun ob : Nat × (α × Nat) => (p + ob.1, false)))
          mask (by rw [hnewMfst]; exact hposnodup)
          (by rw [hnewMfst, hmlen]; exact hposlt)
        have hbilt : bi < positions.length := hblt bi (by simp)
        have ih := fksaPlaceBuckets_spec size_ buckets rest _ _
          (positions.set bi p) (jumps.set bi jmp) (P ++
            (offs.zip (buckets.getD bi [])).map
              (fun ob => (p + ob.1, ob.2.1))) es' ps' js'
          (by rw [hwM.1]; exact hmlen)
          (by rw [hwE.1]; exact helen)
          (by rw [List.length_set, List.length_set]; exact hjplen)
          hnodup.2
          (fun b hb => by rw [List.length_set]; exact hblt b (by simp [hb]))
          hpair.2
          (by
            rw [List.map_append, List.nodup_append]
            refine ⟨hPnodup, by rw [hnewfst]; exact hposnodup, ?_⟩
            intro a ha hmem
            rw [hnewfst] at hmem
            exact hposnotP a hmem ha)
          (by
            intro q hq
            rw [List.map_append] at hq
            rcases List.mem_append.mp hq with hq | hq
            · exact hPlt q hq
            · rw [hnewfst] at hq
              exact hposlt q hq)
          (by
            intro q hqlt
            by_cases hqin : q ∈ offs.map (fun off => p + off)
            · constructor
              · intro _
                rw [List.map_append, List.mem_append]
                right
                rw [hnewfst]
                exact hqin
              · intro _
                rcases List.mem_map.mp hqin with ⟨off, hoff, rfl⟩
                have : ((((offs.zip (buckets.getD bi [])).map
                    (fun ob : Nat × (α × Nat) => (p + ob.1, false))).foldl
                      (fun a pk => a.set pk.1 pk.2) mask).getD (p + off)
                        false) = false := by
                  have hpair2 : (p + off, false) ∈
                      (offs.zip (buckets.getD bi [])).map
                        (fun ob : Nat × (α × Nat) => (p + ob.1, false)) := by
                    have : p + off ∈ ((offs.zip (buckets.getD bi [])).map
                        (fun ob : Nat × (α × Nat) => (p + ob.1, false))).map
                          Prod.fst := by
                      rw [hnewMfst]
                      exact List.mem_map.mpr ⟨off, hoff, rfl⟩
                    rcases List.mem_map.mp this with ⟨pr, hpr, hfsteq⟩
                    rcases List.mem_map.mp hpr with ⟨ob, hob, rfl⟩
                    have : (p + ob.1, false) = ((p + off : Nat), false) := by
                      rw [Prod.ext_iff]
                      exact ⟨hfsteq, rfl⟩
                    rw [← this]
                    exact List.mem_map.mpr ⟨ob, hob, rfl⟩
                  exact hwM.2.1 _ hpair2
                exact this
            · have huntouched := hwM.2.2 q (by rw [hnewMfst]; exact hqin)
              rw [huntouched]
              rw [hmask q hqlt]
              constructor
              · intro hm
                rw [List.map_append, List.mem_append]
                exact Or.inl hm
              · intro hm
                rcases List.mem_append.mp (by
                  rw [List.map_append] at hm
                  exact hm) with hm2 | hm2
                · exact hm2
                · rw [hnewfst] at hm2
                  exact absurd hm2 hqin)
          (by
            intro pk hpk
            rcases List.mem_append.mp hpk with hpk2 | hpk2
            · have hnot : pk.1 ∉ ((offs.zip (buckets.getD bi [])).map
                  (fun ob => (p + ob.1, ob.2.1))).map Prod.fst := by
                rw [hnewfst]
                intro hmem
                exact hposnotP pk.1 hmem
                  (List.mem_map.mpr ⟨pk, hpk2, rfl⟩)
              rw [hwE.2.2 pk.1 hnot]
              exact hPval pk hpk2
            · exact hwE.2.1 pk hpk2)
          hp
        obtain ⟨P', hP'nodup, hP'lt, hP'val, hP'len, hP'perm, hP'pos,
          hP'frame, hP'pslen, hP'jslen⟩ := ih
        refine ⟨P', hP'nodup, hP'lt, hP'val, hP'len, ?_, ?_, ?_, ?_, ?_⟩
        · refine hP'perm.trans ?_
          rw [List.map_append, hnewsnd, List.flatMap_cons, List.append_assoc]
        · intro b hb e he
          rcases List.mem_cons.mp hb with rfl | hb2
          · have hframe := hP'frame b hnodup.1
            have hps : ps'.getD b 0 = p := by
              rw [hframe.1, getD_set_self _ _ _ _ hbilt]
            have hjs : js'.getD b fksaJmpDefault = jmp := by
              rw [hframe.2, getD_set_self _ _ _ _ (by omega)]
            rw [hps, hjs]
            show p + fksaElementOffset e.2 jmp < size_
            refine (hcheck (fksaElementOffset e.2 jmp) ?_).1
            rw [hoffseq]
            exact List.mem_map.mpr ⟨e, he, rfl⟩
          · exact hP'pos b hb2 e he
        · intro b hbnot
          have hbne : b ≠ bi := fun hx => hbnot (hx ▸ List.mem_cons_self bi rest)
          have hbrest : b ∉ rest := fun hx =>
            hbnot (List.mem_cons_of_mem bi hx)
          have hframe := hP'frame b hbrest
          constructor
          · rw [hframe.1, getD_set_ne _ _ _ (fun hx => hbne hx.symm)]
          · rw [hframe.2, getD_set_ne _ _ _ (fun hx => hbne hx.symm)]
        · rw [hP'pslen, List.length_set]
        · rw [hP'jslen, List.length_set]

end fks

namespace fks

variable {α : Type} [Inhabited α]

/-- Any single Variant A `construct` call that returns `true` yields a set
whose element array has exactly `N` slots holding a permutation of the
input keys, and whose `find` position for every inserted key is in
bounds. -/
theorem fksaConstruct_spec (h : α → Nat) (pred : α → α → Bool)
    (prev : FKSASet α) (keys : List α) (lam : Nat) (s : FKSASet α)
    (hc : fksaConstruct h pred prev keys lam = .ok (true, s)) :
    s.size_ = keys.length ∧ s.elements.length = keys.length ∧
      s.elements.Perm keys ∧
      (∀ k ∈ keys, fksaFindPos s (hashv h k) < s.size_) := by
  simp only [fksaConstruct] at hc
  rcases hcl : fksClassify h pred (pow2UpperSizeIndex (keys.length / lam))
      (List.replicate (resizeD prev.jumps
        (resizeD prev.positions
          (pow2UpperSize (pow2UpperSizeIndex (keys.length / lam))) 0).length
        fksaJmpDefault).length []) keys with e | buckets
  · rw [hcl] at hc
    exact absurd hc (by simp)
  · rw [hcl] at hc
    set jsize := pow2UpperSizeIndex (keys.length / lam) with hjsize
    set L := pow2UpperSize jsize with hL
    have hporig : (resizeD prev.positions L 0).length = L :=
      length_resizeD _ _ _
    have hjorig : (resizeD prev.jumps
        (resizeD prev.positions L 0).length fksaJmpDefault).length = L := by
      rw [length_resizeD, hporig]
    rw [hjorig] at hcl
    have hbucklen : buckets.length = L := by
      have := fksClassify_ok_length h pred jsize keys _ buckets hcl
      rw [this, List.length_replicate]
    dsimp only at hc
    rw [hporig] at hc
    rcases hpl : fksaPlaceBuckets keys.length buckets
        (sortedBucketIndices (fun b => (buckets.getD b []).length)
          buckets.length)
        (List.replicate keys.length true)
        (resizeD prev.elements keys.length default)
        (resizeD prev.positions L 0)
        (resizeD prev.jumps L fksaJmpDefault) with ⟨done, es, ps, js⟩
    rw [hpl] at hc
    simp only [Except.ok.injEq, Prod.mk.injEq] at hc
    obtain ⟨hdone, hs⟩ := hc
    subst hdone
    subst hs
    have hsortperm := sortedBucketIndices_perm
      (fun b => (buckets.getD b []).length) buckets.length
    have hsortnodup : (sortedBucketIndices
        (fun b => (buckets.getD b []).length) buckets.length).Nodup :=
      hsortperm.nodup_iff.mpr (List.nodup_range _)
    have hsortpair := sortedBucketIndices_pairwise
      (fun b => (buckets.getD b []).length) buckets.length
    have hspec := fksaPlaceBuckets_spec keys.length buckets
      (sortedBucketIndices (fun b => (buckets.getD b []).length)
        buckets.length)
      (List.replicate keys.length true)
      (resizeD prev.elements keys.length default)
      (resizeD prev.positions L 0)
      (resizeD prev.jumps L fksaJmpDefault)
      [] es ps js
      (List.length_replicate _ _)
      (length_resizeD _ _ _)
      (by rw [length_resizeD, hporig])
      hsortnodup
      (by
        intro b hb
        rw [hporig, ← hbucklen]
        have := hsortperm.mem_iff.mp hb
        exact List.mem_range.mp this)
      hsortpair
      (by simp)
      (by simp)
      (by
        intro q hq
        rw [getD_replicate _ _ hq]
        simp)
      (by simp)
      hpl
    obtain ⟨P', hP'nodup, hP'lt, hP'val, hP'len, hP'perm, hP'pos, _, _, _⟩ :=
      hspec
    simp only [List.map_nil, List.nil_append] at hP'perm
    -- keys as multiset of all bucket entries
    have hposlt : ∀ k : α, pow2UpperPosition (hashv h k) jsize <
        (List.replicate L ([] : List (α × Nat))).length := by
      intro k
      rw [List.length_replicate]
      exact pow2UpperPosition_lt jsize (hashv_lt h k)
    have hflat := fksClassify_flatten h pred jsize keys _ buckets hposlt hcl
    rw [List.flatten_replicate_nil, List.nil_append] at hflat
    have hjoin : ((List.range buckets.length).flatMap
        (fun b => (buckets.getD b []).map Prod.fst)).Perm keys := by
      have h1 : (List.range buckets.length).map
          (fun b => (buckets.getD b []).map Prod.fst) =
          buckets.map (List.map Prod.fst) := by
        conv_rhs => rw [← map_getD_range ([] : List (α × Nat)) buckets]
        rw [List.map_map]
        exact List.map_congr_left (fun b _ => rfl)
      rw [List.flatMap_def, h1, ← List.map_flatten]
      have h2 := hflat.map Prod.fst
      refine h2.trans ?_
      rw [List.map_map]
      have h3 : (keys.map (Prod.fst ∘ fun k => (k, hashv h k))) = keys := by
        have h4 : ∀ k ∈ keys,
            (Prod.fst ∘ fun k : α => (k, hashv h k)) k = id k :=
          fun k _ => rfl
        rw [List.map_congr_left h4, List.map_id]
      rw [h3]
    have hsortflat : ((sortedBucketIndices
        (fun b => (buckets.getD b []).length) buckets.length).flatMap
          (fun b => (buckets.getD b []).map Prod.fst)).Perm keys := by
      have h1 := (hsortperm.map
        (fun b => (buckets.getD b []).map Prod.fst)).flatten
      rw [List.flatMap_def] at hjoin
      rw [List.flatMap_def]
      exact h1.trans hjoin
    have hvalsperm : (P'.map Prod.snd).Perm keys := hP'perm.trans hsortflat
    have hlenp : (P'.map Prod.fst).length = keys.length := by
      have h1 : (P'.map Prod.snd).length = keys.length := hvalsperm.length_eq
      rw [List.length_map] at h1 ⊢
      exact h1
    have hfstperm : (P'.map Prod.fst).Perm (List.range es.length) := by
      have hsub : P'.map Prod.fst ⊆ List.range es.length := by
        intro q hq
        rw [List.mem_range, hP'len]
        exact hP'lt q hq
      have := (hP'nodup.subperm hsub).perm_of_length_le (by
        rw [List.length_range, hlenp, hP'len])
      exact this
    have heperm : es.Perm keys :=
      (elems_perm_of_placed default es P' hfstperm hP'val).trans hvalsperm
    refine ⟨rfl, hP'len, heperm, ?_⟩
    intro k hk
    have hkmem := fksClassify_key_mem h pred jsize keys _ buckets
      (by
        intro k2
        rw [List.length_replicate]
        exact pow2UpperPosition_lt jsize (hashv_lt h k2)) hcl k hk
    have hbmem : pow2UpperPosition (hashv h k) jsize ∈
        sortedBucketIndices (fun b => (buckets.getD b []).length)
          buckets.length := by
      rw [hsortperm.mem_iff, List.mem_range, hbucklen]
      exact pow2UpperPosition_lt jsize (hashv_lt h k)
    exact hP'pos _ hbmem (k, hashv h k) hkmem

/-- Driver-level version of `fksaConstruct_spec`: every successfully
constructed Variant A set (from any object state, after any number of
failed retries) satisfies the same invariants. -/
theorem fksaMkFrom_spec (h : α → Nat) (pred : α → α → Bool)
    (keys : List α) :
    ∀ (lam : Nat) (prev : FKSASet α) (s : FKSASet α),
      fksaMkFrom h pred keys prev lam = .ok s →
      s.size_ = keys.length ∧ s.elements.length = keys.length ∧
        s.elements.Perm keys ∧
        (∀ k ∈ keys, fksaFindPos s (hashv h k) < s.size_) := by
  intro lam
  induction lam using Nat.strong_induction_on with
  | _ lam ih =>
    intro prev s hmk
    by_cases h0 : lam = 0
    · subst h0
      exact absurd hmk (by rw [fksaMkFrom, driverFrom_zero]; simp)
    · rw [fksaMkFrom, driverFrom_succ _ _ h0] at hmk
      rcases hatt : fksaConstruct h pred prev keys lam with e | ⟨b, s0⟩
      · rw [hatt] at hmk
        exact absurd hmk (by simp)
      · rw [hatt] at hmk
        cases b
        · exact ih (lam / 2) (Nat.div_lt_self (by omega) (by omega)) s0 s hmk
        · have hs : s0 = s := by
            simpa using hmk
          subst hs
          exact fksaConstruct_spec h pred prev keys lam s0 hatt

end fks

/-! ## HD placement loop invariant -/

namespace hd

variable {α : Type} [Inhabited α]

theorem hdDupScan_none_nodup (pred : α → α → Bool) :
    ∀ (rest prev : List (α × Nat)),
      (prev.map Prod.snd).Nodup →
      hdDupScan pred prev rest = none →
      ((prev ++ rest).map Prod.snd).Nodup
  | [], prev, hprev, _ => by simpa using hprev
  | e :: rest, prev, hprev, hscan => by
    simp only [hdDupScan] at hscan
    rcases hf : prev.find? (fun p => p.2 == e.2) with _ | p
    · rw [hf] at hscan
      have hnotmem : e.2 ∉ prev.map Prod.snd := by
        intro hmem
        rcases List.mem_map.mp hmem with ⟨p, hp, hpe⟩
        have := List.find?_eq_none.mp hf p hp
        simp [hpe] at this
      have ih := hdDupScan_none_nodup pred rest (prev ++ [e])
        (by
          rw [List.map_append, List.nodup_append]
          exact ⟨hprev, by simp, by simpa using hnotmem⟩) hscan
      rw [List.append_cons]
      exact ih
    · rw [hf] at hscan
      exact absurd hscan (by simp)
  termination_by rest => rest.length

theorem hdPlaceBuckets_spec (pred : α → α → Bool) (size_ size_index : Nat)
    (buckets : List (List (α × Nat))) :
    ∀ (rest : List (Nat × Nat)) (mask : List Bool) (elements : List α)
      (displacements : List (Nat × Nat)) (P : List (Nat × α))
      (es' ds' : List (Nat × Nat) ⊕ Unit) (esx : List α)
      (dsx : List (Nat × Nat)),
      True →
      mask.length = size_ →
      elements.length = size_ →
      List.Pairwise (fun x y : Nat × Nat =>
        (buckets.getD y.2 []).length ≤ (buckets.getD x.2 []).length) rest →
      (P.map Prod.fst).Nodup →
      (∀ q ∈ P.map Prod.fst, q < size_) →
      (∀ q, q < size_ → (mask.getD q false = true ↔ q ∈ P.map Prod.fst)) →
      (∀ pk ∈ P, elements.getD pk.1 default = pk.2) →
      hdPlaceBuckets pred size_ size_index buckets rest mask elements
        displacements = .ok (true, esx, dsx) →
      ∃ P' : List (Nat × α),
        (P'.map Prod.fst).Nodup ∧
        (∀ q ∈ P'.map Prod.fst, q < size_) ∧
        (∀ pk ∈ P', esx.getD pk.1 default = pk.2) ∧
        esx.length = size_ ∧
        (P'.map Prod.snd).Perm (P.map Prod.snd ++
          rest.flatMap (fun ib => (buckets.getD ib.2 []).map Prod.fst)) ∧
        (∀ ib ∈ rest, buckets.getD ib.2 [] ≠ [] →
          hdDupScan pred [] (buckets.getD ib.2 []) = none)
  | [], mask, elements, displacements, P, _, _, esx, dsx, _, hmlen, helen,
      _, hPnodup, hPlt, _, hPval, hp => by
    simp only [hdPlaceBuckets, Except.ok.injEq, Prod.mk.injEq, true_and]
      at hp
    obtain ⟨h1, h2⟩ := hp
    subst h1
    subst h2
    exact ⟨P, hPnodup, hPlt, hPval, helen, by simp, by simp⟩
  | (i, bi) :: rest, mask, elements, displacements, P, _, _, esx, dsx, _,
      hmlen, helen, hpair, hPnodup, hPlt, hmask, hPval, hp => by
    rw [List.pairwise_cons] at hpair
    simp only [hdPlaceBuckets] at hp
    by_cases hbe : (buckets.getD bi []).isEmpty
    · rw [if_pos hbe] at hp
      simp only [Except.ok.injEq, Prod.mk.injEq, true_and] at hp
      obtain ⟨h1, h2⟩ := hp
      subst h1
      subst h2
      have hbempty : buckets.getD bi [] = [] := List.isEmpty_iff.mp hbe
      have hallempty : ∀ ib ∈ rest, buckets.getD (ib : Nat × Nat).2 [] = [] := by
        intro ib hb
        have hle := hpair.1 ib hb
        rw [hbempty] at hle
        have hlen0 : (buckets.getD ib.2 []).length = 0 := by simpa using hle
        exact List.eq_nil_of_length_eq_zero hlen0
      refine ⟨P, hPnodup, hPlt, hPval, helen, ?_, ?_⟩
      · have hflat : ((i, bi) :: rest).flatMap
            (fun ib => (buckets.getD ib.2 []).map Prod.fst) = [] := by
          rw [List.flatMap_eq_nil_iff]
          intro ib hb
          rcases List.mem_cons.mp hb with rfl | hb2
          · rw [hbempty]
            rfl
          · rw [hallempty ib hb2]
            rfl
        rw [hflat, List.append_nil]
      · intro ib hb hne
        rcases List.mem_cons.mp hb with rfl | hb2
        · exact absurd hbempty hne
        · exact absurd (hallempty ib hb2) hne
    · rw [if_neg hbe] at hp
      rcases hdup : hdDupScan pred [] (buckets.getD bi []) with _ | e
      · rw [hdup] at hp
        rcases hsearch : hdSearchDisp size_ size_index (buckets.getD bi [])
            mask (hdCandidates (pow2UpperSize size_index) size_index) with
          _ | ⟨d, mask1, placed⟩
        · rw [hsearch] at hp
          exact absurd hp (by simp)
        · rw [hsearch] at hp
          have htp := hdSearchDisp_some size_ size_index _ mask _ d mask1
            placed hsearch
          obtain ⟨hpleq, hplnodup, hplgood, hm1len, hm1char⟩ :=
            hdTryPlace_some size_ size_index d (buckets.getD bi []) mask []
              mask1 placed hmlen htp
          rw [List.nil_append] at hpleq
          have hplfst : placed.map Prod.fst =
              (buckets.getD bi []).map
                (fun e => hdElementPosition size_index e.2 d) := by
            rw [hpleq, List.map_map]
            exact List.map_congr_left (fun e _ => rfl)
          have hplsnd : placed.map Prod.snd =
              (buckets.getD bi []).map Prod.fst := by
            rw [hpleq, List.map_map]
            exact List.map_congr_left (fun e _ => rfl)
          have hplltP : ∀ q ∈ placed.map Prod.fst, q < size_ := by
            intro q hq
            rw [hplfst] at hq
            rcases List.mem_map.mp hq with ⟨e, he, rfl⟩
            exact (hplgood e he).1
          have hplnotP : ∀ q ∈ placed.map Prod.fst,
              q ∉ P.map Prod.fst := by
            intro q hq hmem
            rw [hplfst] at hq
            rcases List.mem_map.mp hq with ⟨e, he, rfl⟩
            have h2 := (hplgood e he).2
            have h3 := (hmask _ (hplgood e he).1).mpr hmem
            rw [h3] at h2
            exact absurd h2 (by simp)
          have hwE := writes_foldl default placed elements
            (by rw [hplfst]; exact hplnodup)
            (by rw [helen]; exact hplltP)
          have ih := hdPlaceBuckets_spec pred size_ size_index buckets rest
            mask1 (placed.foldl (fun es pk => es.set pk.1 pk.2) elements)
            (displacements.set i d) (P ++ placed) (Sum.inr ())
            (Sum.inr ()) esx dsx trivial
            hm1len
            (by rw [hwE.1]; exact helen)
            hpair.2
            (by
              rw [List.map_append, List.nodup_append]
              refine ⟨hPnodup, by rw [hplfst]; exact hplnodup, ?_⟩
              intro a ha hmem
              exact hplnotP a hmem ha)
            (by
              intro q hq
              rw [List.map_append] at hq
              rcases List.mem_append.mp hq with hq | hq
              · exact hPlt q hq
              · exact hplltP q hq)
            (by
              intro q hqlt
              rw [hm1char q, hmask q hqlt, List.map_append,
                List.mem_append, hplfst])
            (by
              intro pk hpk
              rcases List.mem_append.mp hpk with hpk2 | hpk2
              · have hnot : pk.1 ∉ placed.map Prod.fst := by
                  intro hmem
                  exact hplnotP pk.1 hmem
                    (List.mem_map.mpr ⟨pk, hpk2, rfl⟩)
                rw [hwE.2.2 pk.1 hnot]
                exact hPval pk hpk2
              · exact hwE.2.1 pk hpk2)
            hp
          obtain ⟨P', hP'nodup, hP'lt, hP'val, hP'len, hP'perm, hP'dup⟩ := ih
          refine ⟨P', hP'nodup, hP'lt, hP'val, hP'len, ?_, ?_⟩
          · refine hP'perm.trans ?_
            rw [List.map_append, hplsnd, List.flatMap_cons,
              List.append_assoc]
          · intro ib hb hne
            rcases List.mem_cons.mp hb with rfl | hb2
            · exact hdup
            · exact hP'dup ib hb2 hne
      · rw [hdup] at hp
        exact absurd hp (by simp)

theorem hdConstruct_spec (h : α → Nat) (pred : α → α → Bool)
    (prev : HDSet α) (keys : List α) (lam : Nat) (s : HDSet α)
    (hc : hdConstruct h pred prev keys lam = .ok (true, s)) :
    s.size_ = keys.length ∧ s.elements.length = keys.length ∧
      s.elements.Perm keys ∧
      List.Pairwise (fun a b => hashv h a ≠ hashv h b) keys := by
  simp only [hdConstruct] at hc
  set dsize := pow2LowerSizeIndex (keys.length / lam) with hdsize
  set si := pow2UpperSizeIndex (keys.length + 1) with hsi
  set buckets := hdBuckets h dsize keys with hbk
  have hdisp : (resizeD prev.displacements (pow2LowerSize dsize)
      (0, 0)).length = pow2LowerSize dsize := length_resizeD _ _ _
  have hbucklen : buckets.length = pow2LowerSize dsize :=
    hdBuckets_length h dsize keys
  rw [hdisp] at hc
  set sorted := sortedBucketIndices (fun b => (buckets.getD b []).length)
    (pow2LowerSize dsize) with hsorted
  rcases hpl : hdPlaceBuckets pred keys.length si buckets sorted.enum
      (List.replicate keys.length false)
      (resizeD prev.elements keys.length default)
      (resizeD prev.displacements (pow2LowerSize dsize) (0, 0)) with
    e | ⟨done, es, ds⟩
  · rw [hpl] at hc
    exact absurd hc (by simp)
  · rw [hpl] at hc
    simp only [Except.ok.injEq, Prod.mk.injEq] at hc
    obtain ⟨hdone, hs⟩ := hc
    subst hdone
    subst hs
    have hsortperm := sortedBucketIndices_perm
      (fun b => (buckets.getD b []).length) (pow2LowerSize dsize)
    have hsortpair := sortedBucketIndices_pairwise
      (fun b => (buckets.getD b []).length) (pow2LowerSize dsize)
    rw [← hsorted] at hsortperm hsortpair
    have henumpair : List.Pairwise (fun x y : Nat × Nat =>
        (buckets.getD y.2 []).length ≤ (buckets.getD x.2 []).length)
        sorted.enum := by
      have h0 : List.Pairwise (fun b1 b2 : Nat =>
          (buckets.getD b2 []).length ≤ (buckets.getD b1 []).length)
          (sorted.enum.map Prod.snd) := by
        rw [List.enum_map_snd]
        exact hsortpair
      exact (@List.pairwise_map (Nat × Nat) Nat Prod.snd
        (fun b1 b2 => (buckets.getD b2 []).length ≤ (buckets.getD b1 []).length)
        sorted.enum).mp h0
    have hspec := hdPlaceBuckets_spec pred keys.length si buckets
      sorted.enum (List.replicate keys.length false)
      (resizeD prev.elements keys.length default)
      (resizeD prev.displacements (pow2LowerSize dsize) (0, 0)) []
      (Sum.inr ()) (Sum.inr ()) es ds trivial
      (List.length_replicate _ _)
      (length_resizeD _ _ _)
      henumpair
      (by simp)
      (by simp)
      (by
        intro q hq
        rw [getD_replicate _ _ hq]
        simp)
      (by simp)
      hpl
    obtain ⟨P', hP'nodup, hP'lt, hP'val, hP'len, hP'perm, hP'scan⟩ := hspec
    simp only [List.map_nil, List.nil_append] at hP'perm
    have hflat := hdBuckets_flatten_perm h dsize keys
    have hjoin : ((List.range buckets.length).flatMap
        (fun b => (buckets.getD b []).map Prod.fst)).Perm keys := by
      have h1 : (List.range buckets.length).map
          (fun b => (buckets.getD b []).map Prod.fst) =
          buckets.map (List.map Prod.fst) := by
        conv_rhs => rw [← map_getD_range ([] : List (α × Nat)) buckets]
        rw [List.map_map]
        exact List.map_congr_left (fun b _ => rfl)
      rw [List.flatMap_def, h1, ← List.map_flatten]
      have h2 := hflat.map Prod.fst
      refine h2.trans ?_
      rw [List.map_map]
      have h3 : (keys.map (Prod.fst ∘ fun k => (k, hashv h k))) = keys := by
        have h4 : ∀ k ∈ keys,
            (Prod.fst ∘ fun k : α => (k, hashv h k)) k = id k :=
          fun k _ => rfl
        rw [List.map_congr_left h4, List.map_id]
      rw [h3]
    have henumflat : sorted.enum.flatMap
        (fun ib => (buckets.getD ib.2 []).map Prod.fst) =
        sorted.flatMap (fun b => (buckets.getD b []).map Prod.fst) := by
      rw [List.flatMap_def]
      rw [List.flatMap_def]
      have h1 : sorted.enum.map
          (fun ib : Nat × Nat => (buckets.getD ib.2 []).map Prod.fst) =
          (sorted.enum.map Prod.snd).map
            (fun b => (buckets.getD b []).map Prod.fst) := by
        rw [List.map_map]
        exact List.map_congr_left (fun ib _ => rfl)
      rw [h1, List.enum_map_snd]
    have hsortflat : (sorted.flatMap
        (fun b => (buckets.getD b []).map Prod.fst)).Perm keys := by
      have h1 := (hsortperm.map
        (fun b => (buckets.getD b []).map Prod.fst)).flatten
      rw [List.flatMap_def] at hjoin
      rw [List.flatMap_def]
      rw [hbucklen] at hjoin
      exact h1.trans hjoin
    have hvalsperm : (P'.map Prod.snd).Perm keys := by
      rw [henumflat] at hP'perm
      exact hP'perm.trans hsortflat
    have hlenp : (P'.map Prod.fst).length = keys.length := by
      have h1 : (P'.map Prod.snd).length = keys.length := hvalsperm.length_eq
      rw [List.length_map] at h1 ⊢
      exact h1
    have hfstperm : (P'.map Prod.fst).Perm (List.range es.length) := by
      have hsub : P'.map Prod.fst ⊆ List.range es.length := by
        intro q hq
        rw [List.mem_range, hP'len]
        exact hP'lt q hq
      exact (hP'nodup.subperm hsub).perm_of_length_le (by
        rw [List.length_range, hlenp, hP'len])
    have heperm : es.Perm keys :=
      (elems_perm_of_placed default es P' hfstperm hP'val).trans hvalsperm
    refine ⟨rfl, hP'len, heperm, ?_⟩
    have hscanall : ∀ b, b < buckets.length →
        List.Pairwise (fun e e' : α × Nat => e.2 ≠ e'.2)
          (buckets.getD b []) := by
      intro b hb
      by_cases hbe : buckets.getD b [] = []
      · rw [hbe]
        exact List.Pairwise.nil
      · have hbmem : b ∈ sorted := by
          rw [hsortperm.mem_iff, List.mem_range, ← hbucklen]
          exact hb
        rcases List.mem_iff_getElem.mp hbmem with ⟨i, hi, hget⟩
        have hibmem : (i, b) ∈ sorted.enum := by
          rw [List.mem_iff_getElem]
          refine ⟨i, by rw [List.enum_length]; exact hi, ?_⟩
          rw [List.getElem_enum, hget]
        have hnone := hP'scan (i, b) hibmem hbe
        have hnd := hdDupScan_none_nodup pred (buckets.getD b []) []
          (by simp) hnone
        rw [List.nil_append] at hnd
        exact List.pairwise_map.mp hnd
    have hcross : List.Pairwise
        (fun l₁ l₂ : List (α × Nat) => ∀ x ∈ l₁, ∀ y ∈ l₂, x.2 ≠ y.2)
        buckets := by
      rw [List.pairwise_iff_getElem]
      intro i j hi hj hij x hx y hy
      have hx2 := hdBuckets_mem h dsize keys i x
        (by rw [List.getD_eq_getElem buckets [] hi]; exact hx)
      have hy2 := hdBuckets_mem h dsize keys j y
        (by rw [List.getD_eq_getElem buckets [] hj]; exact hy)
      intro hxy
      rw [← hx2.2.2, ← hy2.2.2, hxy] at hij
      exact absurd rfl (Nat.ne_of_lt hij)
    have hflatpair : List.Pairwise (fun e e' : α × Nat => e.2 ≠ e'.2)
        buckets.flatten := by
      rw [List.pairwise_flatten]
      refine ⟨?_, hcross⟩
      intro l hl
      rcases List.mem_iff_getElem.mp hl with ⟨b, hb, hget⟩
      have := hscanall b hb
      rw [List.getD_eq_getElem buckets [] hb, hget] at this
      exact this
    have hsymm : ∀ {x y : α × Nat}, x.2 ≠ y.2 → y.2 ≠ x.2 :=
      fun hxy => fun hyx => hxy hyx.symm
    have hkeyspair := (List.Perm.pairwise_iff hsymm hflat).mp hflatpair
    exact (@List.pairwise_map α (α × Nat) (fun k => (k, hashv h k))
      (fun x y => x.2 ≠ y.2) keys).mp hkeyspair

/-- Driver-level version of `hdConstruct_spec`: every successfully
constructed HD set (from any object state, after any number of failed
retries) stores exactly the input keys, whose hashes are pairwise
distinct. -/
theorem hdMkFrom_spec (h : α → Nat) (pred : α → α → Bool)
    (keys : List α) :
    ∀ (lam : Nat) (prev : HDSet α) (s : HDSet α),
      hdMkFrom h pred keys prev lam = .ok s →
      s.size_ = keys.length ∧ s.elements.length = keys.length ∧
        s.elements.Perm keys ∧
        List.Pairwise (fun a b => hashv h a ≠ hashv h b) keys := by
  intro lam
  induction lam using Nat.strong_induction_on with
  | _ lam ih =>
    intro prev s hmk
    by_cases h0 : lam = 0
    · subst h0
      exact absurd hmk (by rw [hdMkFrom, driverFrom_zero]; simp)
    · rw [hdMkFrom, driverFrom_succ _ _ h0] at hmk
      rcases hatt : hdConstruct h pred prev keys lam with e | ⟨b, s0⟩
      · rw [hatt] at hmk
        exact absurd hmk (by simp)
      · rw [hatt] at hmk
        cases b
        · exact ih (lam / 2) (Nat.div_lt_self (by omega) (by omega)) s0 s hmk
        · have hs : s0 = s := by
            simpa using hmk
          subst hs
          exact hdConstruct_spec h pred prev keys lam s0 hatt

end hd

/-! ## FKS Variant B sentinel invariants -/

namespace fks

variable {α : Type} [Inhabited α]

theorem fksbPositions_ge (jmp : Nat × Nat) :
    ∀ (bucket : List (α × Nat)) (acc poss : List Nat),
      (∀ p ∈ acc, jmp.1 ≤ p) →
      fksbPositions jmp acc bucket = some poss →
      ∀ p ∈ poss, jmp.1 ≤ p
  | [], acc, poss, hacc, ho => by
    simp only [fksbPositions] at ho
    injection ho with ho
    subst ho
    exact hacc
  | (k, hv) :: bucket, acc, poss, hacc, ho => by
    simp only [fksbPositions] at ho
    by_cases hc : acc.contains (fksbElementPosition hv jmp)
    · rw [if_pos hc] at ho
      exact absurd ho (by simp)
    · rw [if_neg hc] at ho
      refine fksbPositions_ge jmp bucket _ poss ?_ ho
      intro p hp
      rcases List.mem_append.mp hp with hp | hp
      · exact hacc p hp
      · have : p = fksbElementPosition hv jmp := by simpa using hp
        subst this
        exact fksbElementPosition_ge hv jmp

theorem fksbCommitFold_inv :
    ∀ (L : List (Nat × (α × Nat))) (es : List α) (m : List Bool),
      (∀ pb ∈ L, 1 ≤ pb.1) →
      (L.foldl (fun st pb => (st.1.set pb.1 pb.2.1, st.2.set pb.1 true))
          (es, m)).1.getD 0 default = es.getD 0 default ∧
        (L.foldl (fun st pb => (st.1.set pb.1 pb.2.1, st.2.set pb.1 true))
          (es, m)).2.getD 0 false = m.getD 0 false ∧
        (L.foldl (fun st pb => (st.1.set pb.1 pb.2.1, st.2.set pb.1 true))
          (es, m)).1.length = es.length ∧
        (L.foldl (fun st pb => (st.1.set pb.1 pb.2.1, st.2.set pb.1 true))
          (es, m)).2.length = m.length
  | [], es, m, _ => ⟨rfl, rfl, rfl, rfl⟩
  | (p, kv) :: L, es, m, hge => by
    rw [List.foldl_cons]
    have hp1 : 1 ≤ p := hge (p, kv) (by simp)
    have ih := fksbCommitFold_inv L (es.set p kv.1) (m.set p true)
      (fun pb hpb => hge pb (List.mem_cons_of_mem _ hpb))
    refine ⟨?_, ?_, ?_, ?_⟩
    · rw [ih.1, getD_set_ne es kv.1 default (by omega)]
    · rw [ih.2.1, getD_set_ne m true false (by omega)]
    · rw [ih.2.2.1, List.length_set]
    · rw [ih.2.2.2, List.length_set]

theorem fksbPlaceBuckets_inv (buckets : List (List (α × Nat))) :
    ∀ (rest : List Nat) (capacity : Nat) (jumps : List (Nat × Nat))
      (elements : List α) (mask : List Bool) (done : Bool) (c : Nat)
      (js : List (Nat × Nat)) (es : List α) (m : List Bool),
      1 ≤ capacity →
      elements.getD 0 default = default →
      mask.getD 0 false = false →
      elements.length = capacity →
      mask.length = capacity →
      fksbPlaceBuckets buckets rest capacity jumps elements mask =
        (done, c, js, es, m) →
      1 ≤ c ∧ capacity ≤ c ∧ es.getD 0 default = default ∧
        m.getD 0 false = false ∧ es.length = c ∧ m.length = c ∧
        (∀ b, buckets.getD b [] = [] →
          js.getD b (0, 0) = jumps.getD b (0, 0))
  | [], capacity, jumps, elements, mask, done, c, js, es, m, hcap, he0, hm0,
      hel, hml, hp => by
    simp only [fksbPlaceBuckets, Prod.mk.injEq] at hp
    obtain ⟨_, h1, h2, h3, h4⟩ := hp
    subst h1
    subst h2
    subst h3
    subst h4
    exact ⟨hcap, Nat.le_refl _, he0, hm0, hel, hml, fun _ _ => rfl⟩
  | i :: rest, capacity, jumps, elements, mask, done, c, js, es, m, hcap,
      he0, hm0, hel, hml, hp => by
    simp only [fksbPlaceBuckets] at hp
    by_cases hbe : (buckets.getD i []).isEmpty
    · rw [if_pos hbe] at hp
      exact fksbPlaceBuckets_inv buckets rest capacity jumps elements mask
        done c js es m hcap he0 hm0 hel hml hp
    · rw [if_neg hbe] at hp
      rcases hsearch : fksbSearch capacity (buckets.getD i [])
          fksbCandidates with _ | ⟨wd, ws, poss⟩
      · rw [hsearch] at hp
        simp only [Prod.mk.injEq] at hp
        obtain ⟨_, h1, h2, h3, h4⟩ := hp
        subst h1
        subst h2
        subst h3
        subst h4
        refine ⟨hcap, Nat.le_refl _, he0, hm0, hel, hml, ?_⟩
        intro b hb
        have hbi : i ≠ b := by
          intro hx
          subst hx
          rw [hb] at hbe
          exact hbe (by simp)
        exact getD_set_ne jumps _ _ hbi
      · rw [hsearch] at hp
        dsimp only at hp
        obtain ⟨sh, hsh, hwd, hws, hpos⟩ :=
          fksbSearch_some capacity (buckets.getD i []) wd ws poss hsearch
        have hposge : ∀ p ∈ poss, capacity ≤ p :=
          fksbPositions_ge (capacity, ws) (buckets.getD i []) [] poss
            (by simp) hpos
        have hzipge : ∀ pb ∈ poss.zip (buckets.getD i []), 1 ≤ pb.1 := by
          intro pb hpb
          have := List.of_mem_zip hpb
          have h1 := hposge pb.1 this.1
          omega
        have hfold := fksbCommitFold_inv (poss.zip (buckets.getD i []))
          (resizeD elements (capacity + 1 <<< wd) default)
          (resizeD mask (capacity + 1 <<< wd) false) hzipge
        have hcap' : 1 ≤ capacity + 1 <<< wd :=
          Nat.le_trans hcap (Nat.le_add_right _ _)
        have hlt : (0 : Nat) < capacity + 1 <<< wd := hcap'
        have ih := fksbPlaceBuckets_inv buckets rest (capacity + 1 <<< wd)
          (jumps.set i (capacity, ws)) _ _ done c js es m hcap'
          (by
            rw [hfold.1, getD_resizeD elements default default hlt,
              if_pos (by omega), he0])
          (by
            rw [hfold.2.1, getD_resizeD mask false false hlt,
              if_pos (by omega), hm0])
          (by rw [hfold.2.2.1, length_resizeD])
          (by rw [hfold.2.2.2, length_resizeD])
          hp
        refine ⟨ih.1,
          Nat.le_trans (Nat.le_add_right capacity (1 <<< wd)) ih.2.1,
          ih.2.2.1, ih.2.2.2.1, ih.2.2.2.2.1, ih.2.2.2.2.2.1, ?_⟩
        intro b hb
        have hbi : i ≠ b := by
          intro hx
          subst hx
          rw [hb] at hbe
          exact hbe (by simp)
        rw [ih.2.2.2.2.2.2 b hb]
        exact getD_set_ne jumps _ _ hbi

theorem fksbConstruct_inv (h : α → Nat) (pred : α → α → Bool)
    (prev : FKSBSet α) (keys : List α) (lam : Nat) (done : Bool)
    (s : FKSBSet α)
    (hprev : prev.elements.getD 0 default = default)
    (hc : fksbConstruct h pred prev keys lam = .ok (done, s)) :
    1 ≤ s.capacity_ ∧ s.elements.getD 0 default = default ∧
      s.mask.getD 0 false = false ∧ s.elements.length = s.capacity_ ∧
      s.mask.length = s.capacity_ := by
  simp only [fksbConstruct] at hc
  rcases hcl : fksClassify h pred (pow2UpperSizeIndex (keys.length / lam))
      (List.replicate (resizeD prev.jumps
        (pow2UpperSize (pow2UpperSizeIndex (keys.length / lam)))
        (0, 0)).length []) keys with e | buckets
  · rw [hcl] at hc
    exact absurd hc (by simp)
  · rw [hcl] at hc
    dsimp only at hc
    rcases hpl : fksbPlaceBuckets buckets
        (List.range (resizeD prev.jumps
          (pow2UpperSize (pow2UpperSizeIndex (keys.length / lam)))
          (0, 0)).length) 1
        (resizeD prev.jumps
          (pow2UpperSize (pow2UpperSizeIndex (keys.length / lam))) (0, 0))
        (resizeD prev.elements 1 default)
        ((resizeD prev.mask 1 false).set 0 false) with
      ⟨done0, c, js, es, m⟩
    rw [hpl] at hc
    simp only [Except.ok.injEq, Prod.mk.injEq] at hc
    obtain ⟨hdone, hs⟩ := hc
    subst hs
    have hinv := fksbPlaceBuckets_inv buckets _ 1 _ _ _ done0 c js es m
      (Nat.le_refl 1)
      (by
        rw [getD_resizeD prev.elements default default (by omega)]
        by_cases hl : (0 : Nat) < prev.elements.length
        · rw [if_pos hl, hprev]
        · rw [if_neg hl])
      (getD_set_self _ 0 false false (by rw [length_resizeD]; omega))
      (length_resizeD _ _ _)
      (by rw [List.length_set, length_resizeD])
      hpl
    exact ⟨hinv.1, hinv.2.2.1, hinv.2.2.2.1, hinv.2.2.2.2.1,
      hinv.2.2.2.2.2.1⟩

theorem fksbMkFrom_inv (h : α → Nat) (pred : α → α → Bool)
    (keys : List α) :
    ∀ (lam : Nat) (prev : FKSBSet α) (s : FKSBSet α),
      prev.elements.getD 0 default = default →
      fksbMkFrom h pred keys prev lam = .ok s →
      1 ≤ s.capacity_ ∧ s.elements.getD 0 default = default ∧
        s.mask.getD 0 false = false ∧ s.elements.length = s.capacity_ ∧
        s.mask.length = s.capacity_ := by
  intro lam
  induction lam using Nat.strong_induction_on with
  | _ lam ih =>
    intro prev s hprev hmk
    by_cases h0 : lam = 0
    · subst h0
      exact absurd hmk (by rw [fksbMkFrom, driverFrom_zero]; simp)
    · rw [fksbMkFrom, driverFrom_succ _ _ h0] at hmk
      rcases hatt : fksbConstruct h pred prev keys lam with e | ⟨b, s0⟩
      · rw [hatt] at hmk
        exact absurd hmk (by simp)
      · rw [hatt] at hmk
        have hs0 := fksbConstruct_inv h pred prev keys lam b s0 hprev hatt
        cases b
        · exact ih (lam / 2) (Nat.div_lt_self (by omega) (by omega)) s0 s
            hs0.2.1 hmk
        · have hs : s0 = s := by
            simpa using hmk
          subst hs
          exact hs0

theorem fksbConstruct_fresh (h : α → Nat) (pred : α → α → Bool)
    (keys : List α) (lam : Nat) (s : FKSBSet α) (x : α)
    (hc : fksbConstruct h pred fksbInit keys lam = .ok (true, s))
    (hempty : ∀ k ∈ keys, pow2UpperPosition (hashv h k)
        (pow2UpperSizeIndex (keys.length / lam)) ≠
      pow2UpperPosition (hashv h x)
        (pow2UpperSizeIndex (keys.length / lam))) :
    fksbFindPos s (hashv h x) = 0 ∧ fksbFind h pred s x = s.capacity_ := by
  have hinv := fksbConstruct_inv h pred fksbInit keys lam true s rfl hc
  simp only [fksbConstruct] at hc
  rcases hcl : fksClassify h pred (pow2UpperSizeIndex (keys.length / lam))
      (List.replicate (resizeD (fksbInit : FKSBSet α).jumps
        (pow2UpperSize (pow2UpperSizeIndex (keys.length / lam)))
        (0, 0)).length []) keys with e | buckets
  · rw [hcl] at hc
    exact absurd hc (by simp)
  · rw [hcl] at hc
    dsimp only at hc
    rcases hpl : fksbPlaceBuckets buckets
        (List.range (resizeD (fksbInit : FKSBSet α).jumps
          (pow2UpperSize (pow2UpperSizeIndex (keys.length / lam)))
          (0, 0)).length) 1
        (resizeD (fksbInit : FKSBSet α).jumps
          (pow2UpperSize (pow2UpperSizeIndex (keys.length / lam))) (0, 0))
        (resizeD (fksbInit : FKSBSet α).elements 1 default)
        ((resizeD (fksbInit : FKSBSet α).mask 1 false).set 0 false) with
      ⟨done0, c, js, es, m⟩
    rw [hpl] at hc
    simp only [Except.ok.injEq, Prod.mk.injEq] at hc
    obtain ⟨hdone, hs⟩ := hc
    subst hs
    set jsize := pow2UpperSizeIndex (keys.length / lam) with hjsize
    set b := pow2UpperPosition (hashv h x) jsize with hb
    have hbempty : buckets.getD b [] = [] := by
      rcases hbe : buckets.getD b [] with _ | ⟨e, tl⟩
      · rfl
      · exfalso
        have hmem : e ∈ buckets.getD b [] := by
          rw [hbe]
          exact List.mem_cons_self e tl
        have := fksClassify_mem h pred jsize (fun k => k ∈ keys) keys _
          buckets (fun k hk => hk)
          (by
            intro b0 e0 he0
            rw [List.getD_eq_getElem?_getD, List.getElem?_replicate] at he0
            by_cases hb0 : b0 < (resizeD (fksbInit : FKSBSet α).jumps
                (pow2UpperSize jsize) (0, 0)).length
            · rw [if_pos hb0] at he0
              exact absurd he0 (by simp)
            · rw [if_neg hb0] at he0
              exact absurd he0 (by simp))
          hcl b e hmem
        exact hempty e.1 this.1 (by rw [← this.2.1, this.2.2])
    have hjfrozen := (fksbPlaceBuckets_inv buckets _ 1 _ _ _ done0 c js es m
      (Nat.le_refl 1)
      (by simp [fksbInit, resizeD])
      (getD_set_self _ 0 false false (by rw [length_resizeD]; omega))
      (length_resizeD _ _ _)
      (by rw [List.length_set, length_resizeD])
      hpl).2.2.2.2.2.2 b hbempty
    have hjzero : (resizeD (fksbInit : FKSBSet α).jumps
        (pow2UpperSize jsize) (0, 0)).getD b (0, 0) = (0, 0) := by
      rw [List.getD_eq_getElem?_getD]
      rcases hget : (resizeD (fksbInit : FKSBSet α).jumps
          (pow2UpperSize jsize) (0, 0))[b]? with _ | v
      · rfl
      · have hvb := List.getElem?_mem hget
        have : v = (0, 0) := by
          have heq : resizeD (fksbInit : FKSBSet α).jumps
              (pow2UpperSize jsize) (0, 0) =
              List.replicate (pow2UpperSize jsize) (0, 0) := by
            simp [resizeD, fksbInit]
          rw [heq] at hvb
          exact List.eq_of_mem_replicate hvb
        rw [this]
        rfl
    have hfp : fksbFindPos ⟨c, jsize, js, es, m⟩ (hashv h x) = 0 := by
      unfold fksbFindPos
      dsimp only
      rw [← hb, hjfrozen, hjzero]
      unfold fksbElementPosition
      simp
    refine ⟨hfp, ?_⟩
    show fksbFind h pred ⟨c, jsize, js, es, m⟩ x = c
    have heq : fksbFind h pred ⟨c, jsize, js, es, m⟩ x =
        (if m.getD (fksbFindPos ⟨c, jsize, js, es, m⟩ (hashv h x)) false &&
            pred x (es.getD
              (fksbFindPos ⟨c, jsize, js, es, m⟩ (hashv h x)) default)
        then fksbFindPos ⟨c, jsize, js, es, m⟩ (hashv h x)
        else c) := rfl
    rw [heq, hfp]
    have hm0 : m.getD 0 false = false := hinv.2.2.1
    rw [hm0, Bool.false_and, if_neg (by simp)]

theorem fksaConstruct_dup_error (h : α → Nat) (pred : α → α → Bool)
    (prev : FKSASet α) (lam : Nat) (pre mid post : List α) (a aa : α)
    (hh : hashv h a = hashv h aa)
    (hdist : List.Pairwise (fun x y => hashv h x ≠ hashv h y)
      (pre ++ a :: mid)) :
    fksaConstruct h pred prev ((pre ++ a :: mid) ++ aa :: post) lam =
      .error (if pred a aa then .duplicateElement else .duplicateHash) := by
  simp only [fksaConstruct]
  set keys := (pre ++ a :: mid) ++ aa :: post with hkeys
  set jsize := pow2UpperSizeIndex (keys.length / lam) with hjsize
  have hL : (resizeD prev.jumps
      (resizeD prev.positions (pow2UpperSize jsize) 0).length
      fksaJmpDefault).length = pow2UpperSize jsize := by
    rw [length_resizeD, length_resizeD]
  rw [fksClassify_dup_error h pred jsize pre mid post a aa _
    (by
      intro b
      rw [List.getD_eq_getElem?_getD, List.getElem?_replicate]
      by_cases hb : b < (resizeD prev.jumps
          (resizeD prev.positions (pow2UpperSize jsize) 0).length
          fksaJmpDefault).length
      · rw [if_pos hb]
        rfl
      · rw [if_neg hb]
        rfl)
    (by
      intro k
      rw [List.length_replicate, hL]
      exact pow2UpperPosition_lt jsize (hashv_lt h k))
    hh hdist]

theorem fksbConstruct_dup_error (h : α → Nat) (pred : α → α → Bool)
    (prev : FKSBSet α) (lam : Nat) (pre mid post : List α) (a aa : α)
    (hh : hashv h a = hashv h aa)
    (hdist : List.Pairwise (fun x y => hashv h x ≠ hashv h y)
      (pre ++ a :: mid)) :
    fksbConstruct h pred prev ((pre ++ a :: mid) ++ aa :: post) lam =
      .error (if pred a aa then .duplicateElement else .duplicateHash) := by
  simp only [fksbConstruct]
  set keys := (pre ++ a :: mid) ++ aa :: post with hkeys
  set jsize := pow2UpperSizeIndex (keys.length / lam) with hjsize
  have hL : (resizeD prev.jumps (pow2UpperSize jsize) (0, 0)).length =
      pow2UpperSize jsize := length_resizeD _ _ _
  rw [fksClassify_dup_error h pred jsize pre mid post a aa _
    (by
      intro b
      rw [List.getD_eq_getElem?_getD, List.getElem?_replicate]
      by_cases hb : b < (resizeD prev.jumps
          (pow2UpperSize jsize) (0, 0)).length
      · rw [if_pos hb]
        rfl
      · rw [if_neg hb]
        rfl)
    (by
      intro k
      rw [List.length_replicate, hL]
      exact pow2UpperPosition_lt jsize (hashv_lt h k))
    hh hdist]

end fks

/-! ## Extended-capacity minimality and candidate characterisation (HD) -/

namespace hd

variable {α : Type}

theorem hdExtendedSize_min (n : Nat) (h1 : 1 ≤ n) (h64 : n < 2 ^ 64) :
    n < hdExtendedSize n ∧ ∀ p : Nat, n < 2 ^ p → hdExtendedSize n ≤ 2 ^ p := by
  unfold hdExtendedSize pow2UpperSize pow2UpperSizeIndex
  by_cases hn2 : n + 1 ≤ 2
  · have hn1 : n = 1 := by omega
    subst hn1
    rw [if_pos hn2]
    refine ⟨by decide, ?_⟩
    intro p hp
    have hp1 : 1 ≤ p := by
      by_contra hp0
      have : p = 0 := by omega
      subst this
      simp at hp
    have h2 : (1 : Nat) <<< (64 - (64 - 1)) = 2 := by decide
    rw [h2]
    calc (2 : Nat) = 2 ^ 1 := by norm_num
    _ ≤ 2 ^ p := Nat.pow_le_pow_right (by omega) hp1
  · rw [if_neg hn2]
    have hn0 : n ≠ 0 := by omega
    have hsimp : n + 1 - 1 = n := by omega
    rw [hsimp]
    have hbw64 : bitWidth n ≤ 64 := bitWidth_le_of_lt_two_pow hn0 h64
    have hshift : (1 : Nat) <<< (64 - (64 - bitWidth n)) = 2 ^ bitWidth n := by
      rw [Nat.shiftLeft_eq, one_mul]
      congr 1
      omega
    rw [hshift]
    refine ⟨(bitWidth_spec n).1, ?_⟩
    intro p hp
    exact Nat.pow_le_pow_right (by omega)
      (bitWidth_le_of_lt_two_pow hn0 hp)

theorem hdCandidates_mem_iff (M si : Nat) (d : Nat × Nat) :
    d ∈ hdCandidates M si ↔
      ∃ d0, d0 < M ∧ ∃ d1, d1 < M ∧ d = (d0 <<< si, (d1 <<< 32) + 1) := by
  unfold hdCandidates
  constructor
  · intro hd
    rcases List.mem_flatMap.mp hd with ⟨d0, hd0, hmem⟩
    rcases List.mem_map.mp hmem with ⟨d1, hd1, hd2⟩
    exact ⟨d0, List.mem_range.mp hd0, d1, List.mem_range.mp hd1, hd2.symm⟩
  · rintro ⟨d0, hd0, d1, hd1, rfl⟩
    exact List.mem_flatMap.mpr ⟨d0, List.mem_range.mpr hd0,
      List.mem_map.mpr ⟨d1, List.mem_range.mpr hd1, rfl⟩⟩

theorem hdTryPlace_isSome_iff (size_ si : Nat) (d : Nat × Nat)
    (bucket : List (α × Nat)) (mask : List Bool)
    (hlen : mask.length = size_) :
    (hdTryPlace size_ si d mask [] bucket).isSome ↔
      ((bucket.map fun e => hdElementPosition si e.2 d).Nodup ∧
        ∀ e ∈ bucket, hdElementPosition si e.2 d < size_ ∧
          mask.getD (hdElementPosition si e.2 d) false = false) := by
  constructor
  · intro hsome
    rcases ho : hdTryPlace size_ si d mask [] bucket with _ | ⟨m', pl'⟩
    · rw [ho] at hsome
      exact absurd hsome (by simp)
    · have := hdTryPlace_some size_ si d bucket mask [] m' pl' hlen ho
      exact ⟨this.2.1, this.2.2.1⟩
  · rintro ⟨hnodup, hgood⟩
    obtain ⟨m', pl', ho⟩ :=
      hdTryPlace_some_of size_ si d bucket mask [] hlen hnodup hgood
    rw [ho]
    rfl

end hd

/-! ## Claim theorems -/

set_option maxHeartbeats 2000000 in
/-- C9: for the empty input sequence, construction succeeds at the very
first attempt with the initial lambda (HD and FKS Variant A) and raises no
exception; the iteration range `begin()..end()` is empty, and `find`
returns the end cursor (index 0) for every key — the HD `||` short-circuit
and the Variant A `if(pos)` guard keep the element array untouched. -/
theorem empty_input_ok {α : Type} [Inhabited α] :
    ∀ (h : α → Nat) (pred : α → α → Bool),
      hd.hdConstruct h pred hd.hdInit ([] : List α) 4 =
        .ok (true, ⟨0, 1, [(0, 0), (0, 0)], 63, []⟩) ∧
      hd.hdMk h pred ([] : List α) hd.defaultLambda =
        .ok ⟨0, 1, [(0, 0), (0, 0)], 63, []⟩ ∧
      fks.fksaConstruct h pred fks.fksaInit ([] : List α) 4 =
        .ok (true, ⟨0, 63, [0, 0], [(0, 64), (0, 64)], []⟩) ∧
      fks.fksaMk h pred ([] : List α) fks.defaultLambda =
        .ok ⟨0, 63, [0, 0], [(0, 64), (0, 64)], []⟩ ∧
      hd.hdIterKeys (⟨0, 1, [(0, 0), (0, 0)], 63, []⟩ : hd.HDSet α) = [] ∧
      fks.fksaIterKeys
        (⟨0, 63, [0, 0], [(0, 64), (0, 64)], []⟩ : fks.FKSASet α) = [] ∧
      (∀ x : α, hd.hdFind h pred
        (⟨0, 1, [(0, 0), (0, 0)], 63, []⟩ : hd.HDSet α) x = 0) ∧
      (∀ x : α, fks.fksaFind h pred
        (⟨0, 63, [0, 0], [(0, 64), (0, 64)], []⟩ : fks.FKSASet α) x = 0) := by
  intro h pred
  have h1 : hd.hdConstruct h pred hd.hdInit ([] : List α) 4 =
      .ok (true, ⟨0, 1, [(0, 0), (0, 0)], 63, []⟩) := by
    with_unfolding_all rfl
  have h2 : hd.hdMk h pred ([] : List α) hd.defaultLambda =
      .ok ⟨0, 1, [(0, 0), (0, 0)], 63, []⟩ := by
    show hd.hdMkFrom h pred [] hd.hdInit 4 = _
    rw [hd.hdMkFrom, driverFrom_succ _ _ (by norm_num : (4 : Nat) ≠ 0), h1]
  have h3 : fks.fksaConstruct h pred fks.fksaInit ([] : List α) 4 =
      .ok (true, ⟨0, 63, [0, 0], [(0, 64), (0, 64)], []⟩) := by
    with_unfolding_all rfl
  have h4 : fks.fksaMk h pred ([] : List α) fks.defaultLambda =
      .ok ⟨0, 63, [0, 0], [(0, 64), (0, 64)], []⟩ := by
    show fks.fksaMkFrom h pred [] fks.fksaInit 4 = _
    rw [fks.fksaMkFrom, driverFrom_succ _ _ (by norm_num : (4 : Nat) ≠ 0),
      h3]
  refine ⟨h1, h2, h3, h4, rfl, rfl, ?_, fun x => rfl⟩
  intro x
  unfold hd.hdFind
  dsimp only
  rw [if_pos (Nat.zero_le _)]

/-- C6: soundness on absence, for all three variants and every key
(absent keys included): whenever `find` returns a cursor different from
`end`, the slot it points at satisfies the predicate (and, in Variant B,
its mask bit is set); `find` never exposes a slot the predicate rejects. -/
theorem find_soundness_on_absence {α : Type} [Inhabited α] :
    (∀ (h : α → Nat) (pred : α → α → Bool) (s : hd.HDSet α) (x : α),
      hd.hdFind h pred s x ≠ s.size_ →
      pred x (s.elements.getD (hd.hdFind h pred s x) default) = true) ∧
    (∀ (h : α → Nat) (pred : α → α → Bool) (s : fks.FKSASet α) (x : α),
      fks.fksaFind h pred s x ≠ s.size_ →
      pred x (s.elements.getD (fks.fksaFind h pred s x) default) = true) ∧
    (∀ (h : α → Nat) (pred : α → α → Bool) (s : fks.FKSBSet α) (x : α),
      fks.fksbFind h pred s x ≠ s.capacity_ →
      s.mask.getD (fks.fksbFind h pred s x) false = true ∧
      pred x (s.elements.getD (fks.fksbFind h pred s x) default) = true) := by
  refine ⟨?_, ?_, ?_⟩
  · intro h pred s x hne
    unfold hd.hdFind at hne ⊢
    dsimp only at hne ⊢
    by_cases h1 : s.size_ ≤ hd.hdElementPosition s.size_index (hashv h x)
        (s.displacements.getD
          (pow2LowerPosition (hashv h x) s.dsize_index) (0, 0))
    · rw [if_pos h1] at hne
      exact absurd rfl hne
    · rw [if_neg h1] at hne ⊢
      by_cases h2 : pred x (s.elements.getD
          (hd.hdElementPosition s.size_index (hashv h x)
            (s.displacements.getD
              (pow2LowerPosition (hashv h x) s.dsize_index) (0, 0)))
          default) = true
      · rw [if_pos h2]
        exact h2
      · rw [if_neg h2] at hne
        exact absurd rfl hne
  · intro h pred s x hne
    unfold fks.fksaFind at hne ⊢
    dsimp only at hne ⊢
    by_cases h0 : s.size_ = 0
    · rw [if_pos h0] at hne
      exact absurd h0.symm hne
    · rw [if_neg h0] at hne ⊢
      by_cases h2 : pred x (s.elements.getD
          (fks.fksaFindPos s (hashv h x)) default) = true
      · rw [if_pos h2]
        exact h2
      · rw [if_neg h2] at hne
        exact absurd rfl hne
  · intro h pred s x hne
    unfold fks.fksbFind at hne ⊢
    dsimp only at hne ⊢
    by_cases h2 : (s.mask.getD (fks.fksbElementPosition (hashv h x)
        (s.jumps.getD
          (pow2UpperPosition (hashv h x) s.jsize_index) (0, 0))) false &&
      pred x (s.elements.getD (fks.fksbElementPosition (hashv h x)
        (s.jumps.getD
          (pow2UpperPosition (hashv h x) s.jsize_index) (0, 0)))
        default)) = true
    · rw [if_pos h2]
      exact ⟨(Bool.and_eq_true_iff.mp h2).1, (Bool.and_eq_true_iff.mp h2).2⟩
    · rw [if_neg h2] at hne
      exact absurd rfl hne

/-- C6 witness: on the HD set built from `[5, 7]`, the lookup of 5 lands
on slot 0, whose stored value satisfies the predicate. -/
theorem find_soundness_on_absence_witness :
    ((5 : Nat) ==
      ((⟨2, 1, [(0, 1), (0, 0)], 62, [5, 7]⟩ : hd.HDSet Nat).elements.getD
        (hd.hdFind hashC1 (fun a b => a == b)
          ⟨2, 1, [(0, 1), (0, 0)], 62, [5, 7]⟩ 5) default)) = true :=
  (@find_soundness_on_absence Nat _).1 hashC1 (fun a b => a == b)
    ⟨2, 1, [(0, 1), (0, 0)], 62, [5, 7]⟩ 5 (by decide)

/-- C4: the constructor loop starts at the caller-supplied lambda
(`default_lambda = 4` in both headers), invokes the single-lambda
`construct`, returns the set of the first successful attempt, propagates a
thrown duplicate diagnostic unchanged, halves lambda by integer division
after each `false` attempt, and throws `construction_failure` exactly when
every attempt of the halving sequence down to lambda = 1 returns
`false`. -/
theorem driver_semantics {α : Type} [Inhabited α] :
    hd.defaultLambda = 4 ∧ fks.defaultLambda = 4 ∧
    (∀ (h : α → Nat) (pred : α → α → Bool) (keys : List α)
      (prev : hd.HDSet α),
      hd.hdMkFrom h pred keys prev 0 = .error .constructionFailure) ∧
    (∀ (h : α → Nat) (pred : α → α → Bool) (keys : List α)
      (prev : hd.HDSet α) (lam : Nat), lam ≠ 0 →
      (∀ e, hd.hdConstruct h pred prev keys lam = .error e →
        hd.hdMkFrom h pred keys prev lam = .error e) ∧
      (∀ s, hd.hdConstruct h pred prev keys lam = .ok (true, s) →
        hd.hdMkFrom h pred keys prev lam = .ok s) ∧
      (∀ s, hd.hdConstruct h pred prev keys lam = .ok (false, s) →
        hd.hdMkFrom h pred keys prev lam =
          hd.hdMkFrom h pred keys s (lam / 2))) ∧
    (∀ (h : α → Nat) (pred : α → α → Bool) (keys : List α)
      (prev : hd.HDSet α) (lam : Nat),
      hd.hdMkFrom h pred keys prev lam = .error .constructionFailure ↔
        allFailFrom (fun s l => hd.hdConstruct h pred s keys l) prev lam) ∧
    (∀ (h : α → Nat) (pred : α → α → Bool) (keys : List α)
      (prev : fks.FKSASet α),
      fks.fksaMkFrom h pred keys prev 0 = .error .constructionFailure) ∧
    (∀ (h : α → Nat) (pred : α → α → Bool) (keys : List α)
      (prev : fks.FKSASet α) (lam : Nat), lam ≠ 0 →
      (∀ e, fks.fksaConstruct h pred prev keys lam = .error e →
        fks.fksaMkFrom h pred keys prev lam = .error e) ∧
      (∀ s, fks.fksaConstruct h pred prev keys lam = .ok (true, s) →
        fks.fksaMkFrom h pred keys prev lam = .ok s) ∧
      (∀ s, fks.fksaConstruct h pred prev keys lam = .ok (false, s) →
        fks.fksaMkFrom h pred keys prev lam =
          fks.fksaMkFrom h pred keys s (lam / 2))) ∧
    (∀ (h : α → Nat) (pred : α → α → Bool) (keys : List α)
      (prev : fks.FKSASet α) (lam : Nat),
      fks.fksaMkFrom h pred keys prev lam = .error .constructionFailure ↔
        allFailFrom (fun s l => fks.fksaConstruct h pred s keys l)
          prev lam) := by
  refine ⟨rfl, rfl, ?_, ?_, ?_, ?_, ?_, ?_⟩
  · intro h pred keys prev
    rw [hd.hdMkFrom, driverFrom_zero]
  · intro h pred keys prev lam hlam
    refine ⟨?_, ?_, ?_⟩
    · intro e he
      rw [hd.hdMkFrom, driverFrom_succ _ _ hlam, he]
    · intro s hs
      rw [hd.hdMkFrom, driverFrom_succ _ _ hlam, hs]
    · intro s hs
      rw [hd.hdMkFrom, driverFrom_succ _ _ hlam, hs]
      rfl
  · intro h pred keys prev lam
    exact driverFrom_CF_iff _
      (fun s l => hdConstruct_ne_CF h pred s keys l) lam prev
  · intro h pred keys prev
    rw [fks.fksaMkFrom, driverFrom_zero]
  · intro h pred keys prev lam hlam
    refine ⟨?_, ?_, ?_⟩
    · intro e he
      rw [fks.fksaMkFrom, driverFrom_succ _ _ hlam, he]
    · intro s hs
      rw [fks.fksaMkFrom, driverFrom_succ _ _ hlam, hs]
    · intro s hs
      rw [fks.fksaMkFrom, driverFrom_succ _ _ hlam, hs]
      rfl
  · intro h pred keys prev lam
    exact driverFrom_CF_iff _
      (fun s l => fksaConstruct_ne_CF h pred s keys l) lam prev

/-- C4 witness: the recurrence applied at a concrete input — the empty
input succeeds at the first attempt, so the driver returns that set. -/
theorem driver_semantics_witness :
    hd.hdMkFrom (fun n : Nat => n) (fun a b => a == b) [] hd.hdInit 4 =
      .ok ⟨0, 1, [(0, 0), (0, 0)], 63, []⟩ :=
  ((@driver_semantics Nat _).2.2.2.1 (fun n => n) (fun a b => a == b)
    [] hd.hdInit 4 (by decide)).2.1 ⟨0, 1, [(0, 0), (0, 0)], 63, []⟩ rfl

/-- C2 (amended): for every successfully constructed Variant A set and
every key of the input, the element position `find` computes is strictly
below the element-array length; the source performs no bounds check, and
for absent keys the position can reach the array length (see the
counterexample). -/
theorem fksa_find_inbounds_for_members {α : Type} [Inhabited α]
    (h : α → Nat) (pred : α → α → Bool) (keys : List α)
    (prev : fks.FKSASet α) (lam : Nat) (s : fks.FKSASet α)
    (hmk : fks.fksaMkFrom h pred keys prev lam = .ok s) :
    s.size_ = keys.length ∧ s.elements.length = keys.length ∧
      ∀ k ∈ keys, fks.fksaFindPos s (hashv h k) < s.size_ := by
  have hs := fks.fksaMkFrom_spec h pred keys lam prev s hmk
  exact ⟨hs.1, hs.2.1, hs.2.2.2⟩

/-- C2 witness: the member-position bound applied at a concrete set. -/
theorem fksa_find_inbounds_witness :
    fks.fksaFindPos
      (⟨3, 63, [0, 1], [(62, 62), (64, 64)], [0, 2, 1]⟩ : fks.FKSASet Nat)
      (hashv hashC2 0) < 3 :=
  (fksa_find_inbounds_for_members hashC2 (fun a b => a == b) [0, 1, 2]
    fks.fksaInit 4 ⟨3, 63, [0, 1], [(62, 62), (64, 64)], [0, 2, 1]⟩
    rfl).2.2 0 (by decide)

/-- C2 counterexample: on the set built from keys `[0, 1, 2]` under
`hashC2`, the lookup of the absent key `5` (hash 3) computes element
position 3 = N — `elements_[3]` is one past the array, so the original
claim that every computed position is `< N` is false (the C++ read is out
of bounds). -/
theorem fksa_findpos_reaches_size :
    (fks.fksaMk hashC2 (fun a b => a == b) [0, 1, 2] 4).map
      (fun s => (fks.fksaFindPos s (hashv hashC2 5), s.size_,
        s.elements.length)) = .ok (3, 3, 3) := rfl

/-- C7 (amended): every successfully constructed HD or FKS Variant A set
is traversed from `begin()` to `end()` over slots `0..N`, visiting exactly
the `N` stored keys (a permutation of the input); a Variant B set is
traversed over all slots `0..C` with no filtering through `Mask`, so the
sentinel slot 0 and every other unoccupied slot — default-constructed
filler values — are visited as well. -/
theorem iteration_visits {α : Type} [Inhabited α] :
    (∀ (h : α → Nat) (pred : α → α → Bool) (keys : List α)
      (prev : hd.HDSet α) (lam : Nat) (s : hd.HDSet α),
      hd.hdMkFrom h pred keys prev lam = .ok s →
      hd.hdIterKeys s = s.elements ∧ (hd.hdIterKeys s).Perm keys) ∧
    (∀ (h : α → Nat) (pred : α → α → Bool) (keys : List α)
      (prev : fks.FKSASet α) (lam : Nat) (s : fks.FKSASet α),
      fks.fksaMkFrom h pred keys prev lam = .ok s →
      fks.fksaIterKeys s = s.elements ∧ (fks.fksaIterKeys s).Perm keys) ∧
    (∀ (h : α → Nat) (pred : α → α → Bool) (keys : List α)
      (prev : fks.FKSBSet α) (lam : Nat) (s : fks.FKSBSet α),
      prev.elements.getD 0 default = default →
      fks.fksbMkFrom h pred keys prev lam = .ok s →
      fks.fksbIterKeys s = s.elements ∧ s.elements.length = s.capacity_ ∧
        s.mask.getD 0 false = false) := by
  refine ⟨?_, ?_, ?_⟩
  · intro h pred keys prev lam s hmk
    have hs := hd.hdMkFrom_spec h pred keys lam prev s hmk
    have hlen : s.size_ = s.elements.length := by rw [hs.1, hs.2.1]
    have htake : hd.hdIterKeys s = s.elements := by
      unfold hd.hdIterKeys
      rw [hlen, List.take_length]
    exact ⟨htake, by rw [htake]; exact hs.2.2.1⟩
  · intro h pred keys prev lam s hmk
    have hs := fks.fksaMkFrom_spec h pred keys lam prev s hmk
    have hlen : s.size_ = s.elements.length := by rw [hs.1, hs.2.1]
    have htake : fks.fksaIterKeys s = s.elements := by
      unfold fks.fksaIterKeys
      rw [hlen, List.take_length]
    exact ⟨htake, by rw [htake]; exact hs.2.2.1⟩
  · intro h pred keys prev lam s hprev hmk
    have hs := fks.fksbMkFrom_inv h pred keys lam prev s hprev hmk
    have htake : fks.fksbIterKeys s = s.elements := by
      unfold fks.fksbIterKeys
      rw [← hs.2.2.2.1, List.take_length]
    exact ⟨htake, hs.2.2.2.1, hs.2.2.1⟩

/-- C7 witness: the HD part applied at a concrete construction. -/
theorem iteration_visits_witness :
    (hd.hdIterKeys
      (⟨2, 1, [(0, 1), (0, 0)], 62, [5, 7]⟩ : hd.HDSet Nat)).Perm
      [5, 7] :=
  ((@iteration_visits Nat _).1 hashC1 (fun a b => a == b) [5, 7] hd.hdInit
    4 ⟨2, 1, [(0, 1), (0, 0)], 62, [5, 7]⟩ rfl).2

/-- C7 counterexample: Variant B built from the single key `[7]` stores it
at slot 1 of a capacity-2 array; `begin()..end()` visits both slots, so
the default-constructed sentinel value 0 (mask bit clear) is visited —
the traversal is not filtered through `Mask` as the specification
states. -/
theorem fksb_iteration_unfiltered :
    (fks.fksbMk (fun n : Nat => n) (fun a b => a == b) [7] 4).map
      (fun s => (fks.fksbIterKeys s, fks.fksbIterKeysMasked s, s.mask)) =
      .ok ([0, 7], [7], [false, true]) ∧
    ([0, 7] : List Nat) ≠ [7] := ⟨rfl, by decide⟩

/-- C3 (amended): in both FKS variants a hash collision is detected during
bucket classification, before any placement: construction throws
`duplicate_element` when `Pred(existing, new)` holds and `duplicate_hash`
otherwise, and never returns a set. In the HD scheme a successful
construction still implies that all hashes are pairwise distinct (a set is
never returned on colliding input), but the per-bucket duplicate scan can
be preempted by an earlier unplaceable bucket, in which case the driver
reports `construction_failure` instead of the duplicate diagnostic (see
the counterexample). -/
theorem dup_diagnostics {α : Type} [Inhabited α] :
    (∀ (h : α → Nat) (pred : α → α → Bool) (pre mid post : List α)
      (a aa : α) (prev : fks.FKSASet α) (lam : Nat), lam ≠ 0 →
      hashv h a = hashv h aa →
      List.Pairwise (fun x y => hashv h x ≠ hashv h y) (pre ++ a :: mid) →
      fks.fksaMkFrom h pred ((pre ++ a :: mid) ++ aa :: post) prev lam =
        .error (if pred a aa then .duplicateElement else .duplicateHash)) ∧
    (∀ (h : α → Nat) (pred : α → α → Bool) (pre mid post : List α)
      (a aa : α) (prev : fks.FKSBSet α) (lam : Nat), lam ≠ 0 →
      hashv h a = hashv h aa →
      List.Pairwise (fun x y => hashv h x ≠ hashv h y) (pre ++ a :: mid) →
      fks.fksbMkFrom h pred ((pre ++ a :: mid) ++ aa :: post) prev lam =
        .error (if pred a aa then .duplicateElement else .duplicateHash)) ∧
    (∀ (h : α → Nat) (pred : α → α → Bool) (keys : List α)
      (prev : hd.HDSet α) (lam : Nat) (s : hd.HDSet α),
      hd.hdMkFrom h pred keys prev lam = .ok s →
      List.Pairwise (fun x y : α => hashv h x ≠ hashv h y) keys) := by
  refine ⟨?_, ?_, ?_⟩
  · intro h pred pre mid post a aa prev lam hlam hh hdist
    rw [fks.fksaMkFrom, driverFrom_succ _ _ hlam,
      fks.fksaConstruct_dup_error h pred prev lam pre mid post a aa hh
        hdist]
  · intro h pred pre mid post a aa prev lam hlam hh hdist
    rw [fks.fksbMkFrom, driverFrom_succ _ _ hlam,
      fks.fksbConstruct_dup_error h pred prev lam pre mid post a aa hh
        hdist]
  · intro h pred keys prev lam s hmk
    exact (hd.hdMkFrom_spec h pred keys lam prev s hmk).2.2.2

/-- C3 witness: keys 20 and 21 collide under `hashC2` (both hash to 3) and
are not equal, so Variant A construction throws `duplicate_hash`. -/
theorem dup_diagnostics_witness :
    fks.fksaMkFrom hashC2 (fun a b => a == b) [20, 21] fks.fksaInit 4 =
      .error .duplicateHash :=
  (@dup_diagnostics Nat _).1 hashC2 (fun a b => a == b) [] [] [] 20 21
    fks.fksaInit 4 (by decide) (by decide) (by decide)

/-- C3 counterexample: under `hashC3` the keys 20 and 21 collide (both
hash to 1), yet the HD driver reports `construction_failure`, not
`duplicate_hash`: the bucket of hashes `0, 2^63, 2^60` sorts first and is
unplaceable at every lambda (its members 10 and 11 always collide on the
virtual slot), so the duplicate scan of the colliding bucket is never
reached.  The original claim that construct raises the duplicate
diagnostic on every colliding input is false for the HD scheme. -/
theorem hd_dup_preempted_by_cf :
    hd.hdMk hashC3 (fun a b => a == b) [10, 11, 12, 20, 21, 30, 31, 32] 4 =
      .error .constructionFailure ∧
    hashv hashC3 20 = hashv hashC3 21 ∧ (20 : Nat) ≠ 21 := by
  exact ⟨rfl, by decide, by decide⟩

/-- C10 (amended): slot 0 of a Variant B set is a sentinel — after every
successful construction (from any object state whose slot 0 holds the
default value, as the freshly initialised object does) the capacity is at
least 1, `mask[0]` is clear and slot 0 holds the default value, so no key
is stored there.  When construction succeeds on the first attempt, a
lookup whose hash selects a bucket that received no keys reads the
untouched jump entry `(0, 0)`, computes element position 0 and returns the
end cursor.  After a failed attempt, however, stale jump entries may make
such a lookup compute a nonzero position (see the counterexample). -/
theorem fksb_sentinel {α : Type} [Inhabited α] :
    (∀ (h : α → Nat) (pred : α → α → Bool) (keys : List α)
      (prev : fks.FKSBSet α) (lam : Nat) (s : fks.FKSBSet α),
      prev.elements.getD 0 default = default →
      fks.fksbMkFrom h pred keys prev lam = .ok s →
      1 ≤ s.capacity_ ∧ s.mask.getD 0 false = false ∧
        s.elements.getD 0 default = default) ∧
    (∀ (h : α → Nat) (pred : α → α → Bool) (keys : List α) (lam : Nat)
      (s : fks.FKSBSet α) (x : α),
      fks.fksbConstruct h pred fks.fksbInit keys lam = .ok (true, s) →
      (∀ k ∈ keys, pow2UpperPosition (hashv h k)
          (pow2UpperSizeIndex (keys.length / lam)) ≠
        pow2UpperPosition (hashv h x)
          (pow2UpperSizeIndex (keys.length / lam))) →
      fks.fksbFindPos s (hashv h x) = 0 ∧
        fks.fksbFind h pred s x = s.capacity_) := by
  refine ⟨?_, ?_⟩
  · intro h pred keys prev lam s hprev hmk
    have hs := fks.fksbMkFrom_inv h pred keys lam prev s hprev hmk
    exact ⟨hs.1, hs.2.2.1, hs.2.1⟩
  · intro h pred keys lam s x hc hempty
    exact fks.fksbConstruct_fresh h pred keys lam s x hc hempty

/-- C10 witness: the fresh-construction part applied at a concrete input —
key 7 occupies bucket 0, so the lookup of `2^63` (bucket 1, no keys)
computes position 0 and returns the end cursor 2. -/
theorem fksb_sentinel_witness :
    fks.fksbFindPos
        (⟨2, 63, [(1, 0), (0, 0)], [0, 7], [false, true]⟩ : fks.FKSBSet Nat)
        (hashv (fun n : Nat => n) (2 ^ 63)) = 0 ∧
      fks.fksbFind (fun n : Nat => n) (fun a b => a == b)
        (⟨2, 63, [(1, 0), (0, 0)], [0, 7], [false, true]⟩ : fks.FKSBSet Nat)
        (2 ^ 63) = 2 :=
  (@fksb_sentinel Nat _).2 (fun n => n) (fun a b => a == b) [7] 4
    ⟨2, 63, [(1, 0), (0, 0)], [0, 7], [false, true]⟩ (2 ^ 63) rfl
    (by decide)

/-- C10 counterexample: constructing from `[1, 2, 3, 4, 5]` under
`hashC10` needs a retry, and the failed first attempt leaves a stale jump
entry `(1, 256)` at bucket 0; the lookup of key 0 (hash 0, a bucket that
received no keys — all five stored hashes live in buckets 2, 4 and 5)
computes element position 1, not 0, refuting the original claim.  The
lookup still returns the end cursor 6 because the predicate rejects the
slot. -/
theorem fksb_stale_jump_cex :
    (fks.fksbMk hashC10 (fun a b => a == b) [1, 2, 3, 4, 5] 4).map
      (fun s => (s.jumps.getD 0 (0, 0), fks.fksbFindPos s (hashv hashC10 0),
        fks.fksbFind hashC10 (fun a b => a == b) s 0, s.capacity_,
        s.jsize_index)) = .ok ((1, 256), 1, 6, 6, 61) ∧
    (∀ k ∈ [1, 2, 3, 4, 5], pow2UpperPosition (hashv hashC10 k) 61 ≠
      pow2UpperPosition (hashv hashC10 0) 61) := ⟨rfl, by decide⟩

/-- C5 (amended): the extended capacity `M` fixed by the HD solver is the
smallest power of two strictly greater than `N` (for `1 ≤ N < 2^64`); the
candidate pairs enumerate `d0, d1 < M` pre-encoded as
`(d0 << size_index, (d1 << 32) + 1)`, the tentative slot of a member with
hash `h` is `((d0 << size_index) + ((d1 << 32) + 1)·h) >> size_index` in
64-bit arithmetic — the first summand is `d0` shifted by `size_index`,
not `d0·M` as the specification words it — and a candidate is accepted
exactly when all its slots are `< N`, pairwise distinct and unoccupied. -/
theorem hd_slot_formula {α : Type} :
    (∀ n : Nat, 1 ≤ n → n < 2 ^ 64 →
      n < hd.hdExtendedSize n ∧
        ∀ p : Nat, n < 2 ^ p → hd.hdExtendedSize n ≤ 2 ^ p) ∧
    (∀ (M si : Nat) (d : Nat × Nat),
      d ∈ hd.hdCandidates M si ↔
        ∃ d0, d0 < M ∧ ∃ d1, d1 < M ∧ d = (d0 <<< si, (d1 <<< 32) + 1)) ∧
    (∀ si d0 d1 hash : Nat,
      hd.hdElementPosition si hash (d0 <<< si, (d1 <<< 32) + 1) =
        (((d0 <<< si) + ((d1 <<< 32) + 1) * hash) % 2 ^ 64) >>> si) ∧
    (∀ (size_ si : Nat) (d : Nat × Nat) (bucket : List (α × Nat))
      (mask : List Bool), mask.length = size_ →
      ((hd.hdTryPlace size_ si d mask [] bucket).isSome ↔
        ((bucket.map fun e => hd.hdElementPosition si e.2 d).Nodup ∧
          ∀ e ∈ bucket, hd.hdElementPosition si e.2 d < size_ ∧
            mask.getD (hd.hdElementPosition si e.2 d) false = false))) := by
  refine ⟨hd.hdExtendedSize_min, hd.hdCandidates_mem_iff,
    fun si d0 d1 hash => rfl, ?_⟩
  intro size_ si d bucket mask hlen
  exact hd.hdTryPlace_isSome_iff size_ si d bucket mask hlen

/-- C5 witness: for `N = 2` the extended capacity is 4, the minimal power
of two above 2. -/
theorem hd_slot_formula_witness :
    (2 : Nat) < hd.hdExtendedSize 2 ∧ hd.hdExtendedSize 2 ≤ 2 ^ 2 :=
  ⟨((@hd_slot_formula Nat).1 2 (by decide) (by decide)).1,
    ((@hd_slot_formula Nat).1 2 (by decide) (by decide)).2 2 (by decide)⟩

/-- C5 counterexample: for `N = 2` the solver works with `M = 4` and
`size_index = 62`; at `d0 = 1, d1 = 0, hash = 0` the specification's
formula `((d0·M) + ((d1 << 32) + 1)·h) >> size_index` yields slot 0 while
the source computes slot 1 (`d0` enters the sum as `d0 << size_index`,
i.e. `d0·2^62`, not `d0·M = 4·d0`). -/
theorem hd_slot_formula_spec_mismatch :
    hd.hdExtendedSize 2 = 4 ∧ pow2UpperSizeIndex (2 + 1) = 62 ∧
    hd.hdSlotSpecFormula (hd.hdExtendedSize 2) 62 1 0 0 = 0 ∧
    hd.hdElementPosition 62 0 (1 <<< 62, (0 <<< 32) + 1) = 1 := by decide

/-- C8 (amended): lambda-halving monotonicity does not hold — success of
the single-lambda `construct` at lambda = k does not imply success at
lambda = k/2, because halving lambda re-partitions the keys over a larger
bucket table rather than merely enlarging the parameter space; the driver
therefore retries every lambda of the halving sequence instead of relying
on monotonicity. -/
theorem lambda_halving_not_monotone :
    ¬ (∀ (h : Nat → Nat) (pred : Nat → Nat → Bool) (keys : List Nat)
        (k : Nat), 1 < k →
        (∃ s, hd.hdConstruct h pred hd.hdInit keys k = .ok (true, s)) →
        ∃ s, hd.hdConstruct h pred hd.hdInit keys (k / 2) =
          .ok (true, s)) := by
  intro hmono
  obtain ⟨s, hs⟩ := hmono hashC8 (fun a b => a == b)
    [0, 1, 2, 3, 4, 5, 6, 7] 4 (by decide) ⟨_, rfl⟩
  have h2 : (hd.hdConstruct hashC8 (fun a b => a == b) hd.hdInit
      [0, 1, 2, 3, 4, 5, 6, 7] (4 / 2)).map (fun p => p.1) =
      .ok false := rfl
  rw [hs] at h2
  exact absurd h2 (by simp [Except.map])

/-- C8 counterexample: under `hashC8` the single-lambda attempt on eight
keys succeeds at lambda = 4 but fails (returns `false`) at
lambda = 4/2 = 2. -/
theorem hd_lambda_monotonicity_cex :
    (hd.hdConstruct hashC8 (fun a b => a == b) hd.hdInit
      [0, 1, 2, 3, 4, 5, 6, 7] 4).map (fun p => p.1) = .ok true ∧
    (hd.hdConstruct hashC8 (fun a b => a == b) hd.hdInit
      [0, 1, 2, 3, 4, 5, 6, 7] 2).map (fun p => p.1) = .ok false :=
  ⟨rfl, rfl⟩

/-- C1 (code bug evaluation): on keys `[5, 7]` with pairwise distinct
hashes the HD construction succeeds, yet `find` misses the stored key 7 —
`construct` commits the winning displacement pair at the loop counter
(`displacements[i] = d`, line 199) instead of the bucket index
`sorted_bucket_indices[i]` that `find` reads, so completeness fails. -/
theorem hd_find_miss_on_present_key :
    hashv hashC1 5 ≠ hashv hashC1 7 ∧
    (hd.hdMk hashC1 (fun a b => a == b) [5, 7] 4).map
      (fun s => (s.size_, s.elements,
        hd.hdFind hashC1 (fun a b => a == b) s 5,
        hd.hdFind hashC1 (fun a b => a == b) s 7)) =
      .ok (2, [5, 7], 0, 2) := ⟨by decide, rfl⟩
